import Mathlib

/-!
Shallow embedding of the Huffman codec in `src/compress.rs` (module `huffman`),
the canonical codec of the repository (the one with both `compress` and
`decompress`, used by `main.rs`).

Modelling conventions:
* Rust `char` is a Unicode scalar value, embedded as `Nat` (its codepoint).
* Rust `String` is a list of chars; `String::into_bytes` is UTF-8 encoding,
  embedded as `utf8Bytes`.
* Rust `u8` arithmetic that can wrap carries an explicit `% 256`.
* `i32` frequencies are embedded as `Nat`: frequencies are occurrence counts
  and sums of counts, and every comparison the heap performs is on these.
* Code that can panic (`unwrap`, `expect`, out-of-range slice, `Vec::resize`
  to a length obtained by underflowing subtraction) is embedded in `Option`,
  with `none` for the panic.
* `std::collections::BinaryHeap` is embedded exactly: a `Vec` (here a list)
  with `sift_up` and `sift_down_to_bottom` as in the Rust standard library,
  comparing with the program's manual `PartialOrd` (reversed comparison of
  `freq`, giving a min-heap on `freq`).
* `HashMap<char, String>` is only ever built by repeated `insert` and read by
  `get`, so it is embedded as an association list with insert-or-replace;
  iteration order, which the map's consumers never use, does not matter.
-/

set_option maxHeartbeats 1000000
set_option maxRecDepth 100000

namespace HuffmanRs

/-- `struct Node { letter: char, freq: i32, left, right: Option<Box<Node>> }`. -/
inductive Node where
  | mk (letter : Nat) (freq : Nat) (left : Option Node) (right : Option Node)

/-- Structural equality, as the derived `PartialEq`/`Eq` of the Rust struct. -/
def Node.decEq : (a b : Node) → Decidable (a = b)
  | .mk a₁ f₁ l₁ r₁, .mk a₂ f₂ l₂ r₂ => by
    have da : Decidable (a₁ = a₂) := inferInstance
    have df : Decidable (f₁ = f₂) := inferInstance
    have dl : Decidable (l₁ = l₂) := by
      cases l₁ with
      | none =>
        cases l₂ with
        | none => exact isTrue rfl
        | some y => exact isFalse (by simp)
      | some x =>
        cases l₂ with
        | none => exact isFalse (by simp)
        | some y =>
          cases Node.decEq x y with
          | isTrue h => exact isTrue (by rw [h])
          | isFalse h => exact isFalse (by simpa using h)
    have dr : Decidable (r₁ = r₂) := by
      cases r₁ with
      | none =>
        cases r₂ with
        | none => exact isTrue rfl
        | some y => exact isFalse (by simp)
      | some x =>
        cases r₂ with
        | none => exact isFalse (by simp)
        | some y =>
          cases Node.decEq x y with
          | isTrue h => exact isTrue (by rw [h])
          | isFalse h => exact isFalse (by simpa using h)
    cases da with
    | isFalse h => exact isFalse (by simp [h])
    | isTrue h₁ =>
      cases df with
      | isFalse h => exact isFalse (by simp [h])
      | isTrue h₂ =>
        cases dl with
        | isFalse h => exact isFalse (by simp [h])
        | isTrue h₃ =>
          cases dr with
          | isFalse h => exact isFalse (by simp [h])
          | isTrue h₄ => exact isTrue (by rw [h₁, h₂, h₃, h₄])

instance : DecidableEq Node := Node.decEq

def Node.letter : Node → Nat
  | .mk l _ _ _ => l

def Node.freq : Node → Nat
  | .mk _ f _ _ => f

def Node.left : Node → Option Node
  | .mk _ _ l _ => l

def Node.right : Node → Option Node
  | .mk _ _ _ r => r

instance : Inhabited Node := ⟨.mk 0 0 none none⟩

/-- `Node::new(letter, freq)`: a leaf. -/
def Node.new (letter freq : Nat) : Node := .mk letter freq none none

/-- The program's manual `PartialOrd for Node`: `a.partial_cmp(b)` is
`Some(a.freq.cmp(&b.freq).reverse())`, so Rust's `a <= b` holds iff
`b.freq ≤ a.freq`. -/
def nodeLe (a b : Node) : Bool := b.freq ≤ a.freq

/-! ### `std::collections::BinaryHeap`, specialised to `Node` -/

/-- Indexing `Vec<Node>`; all uses are in range. -/
def hget (a : List Node) (i : Nat) : Node := a.getD i default

/-- `BinaryHeap::sift_up(start, pos)` with the hole's element `e` made
explicit: walk up while the element is strictly greater (in the reversed
order: strictly smaller `freq`) than the parent, shifting parents down,
then fill the hole.  Returns the array and the final hole position.
The `fuel` argument makes the loop structurally recursive; the hole position
strictly decreases, so every caller passes `fuel = pos`, which the loop can
never exhaust (at `fuel = 0` we have `pos = 0`, and the loop would stop
with the same result). -/
def siftUpGo (e : Node) (start : Nat) : Nat → List Node → Nat → List Node × Nat
  | 0, a, pos => (a.set pos e, pos)
  | fuel + 1, a, pos =>
    if start < pos then
      if nodeLe e (hget a ((pos - 1) / 2)) then (a.set pos e, pos)
      else siftUpGo e start fuel (a.set pos (hget a ((pos - 1) / 2))) ((pos - 1) / 2)
    else (a.set pos e, pos)

/-- `BinaryHeap::push`: append, then sift up from the last position. -/
def hpush (a : List Node) (x : Node) : List Node :=
  (siftUpGo x 0 a.length (a ++ [x]) a.length).1

/-- The descent loop of `BinaryHeap::sift_down_to_bottom`: move the hole to a
childless position, always stepping to the greater child (ties pick the right
child, per `child += (hole.get(child) <= hole.get(child + 1)) as usize`).
Returns the array and the final hole position. -/
def sdbChild (a : List Node) (pos : Nat) : Nat :=
  if nodeLe (hget a (2 * pos + 1)) (hget a (2 * pos + 2)) then 2 * pos + 2
  else 2 * pos + 1

/-- As with `siftUpGo`, `fuel` makes the descent structurally recursive; the
hole position strictly increases below `a.length`, so `fuel = a.length`
always suffices and is what every caller passes. -/
def sdbGo : Nat → List Node → Nat → List Node × Nat
  | 0, a, pos => (a, pos)
  | fuel + 1, a, pos =>
    if 2 * pos + 2 < a.length then
      sdbGo fuel (a.set pos (hget a (sdbChild a pos))) (sdbChild a pos)
    else if 2 * pos + 2 = a.length then
      (a.set pos (hget a (2 * pos + 1)), 2 * pos + 1)
    else (a, pos)

/-- `BinaryHeap::sift_down_to_bottom(pos)`: descend to the bottom, then
`sift_up(pos, hole)` places the displaced element. -/
def siftDownToBottom (a : List Node) (pos : Nat) : List Node :=
  match sdbGo a.length a pos with
  | (a₁, p) => (siftUpGo (hget a pos) pos p a₁ p).1

/-- `BinaryHeap::pop`: pop the last element of the `Vec`; if elements remain,
swap it with slot 0 and sift down from the root. -/
def hpop (a : List Node) : Option (Node × List Node) :=
  if a.isEmpty then none
  else if a.dropLast.isEmpty then some (hget a (a.length - 1), [])
  else some (hget a.dropLast 0,
    siftDownToBottom (a.dropLast.set 0 (hget a (a.length - 1))) 0)

/-! ### `freq_count` -/

/-- `chars.sort()`: Rust's stable ascending sort.  On `Nat` codepoints the
sorted permutation is unique, so any correct sort embeds it; we use
Mathlib's insertion sort. -/
def sortChars (l : List Nat) : List Nat := l.insertionSort (· ≤ ·)

/-- The `for c in chars` loop of `freq_count`, carrying `prev`, `freq`, and
the output vector (`freq` starts at 0 with `prev` the first element, and the
loop runs over the whole sorted list including that first element). -/
def fcGo : List Nat → Nat → Nat → List Node → List Node
  | [], prev, freq, acc => acc ++ [Node.new prev freq]
  | c :: cs, prev, freq, acc =>
    if c = prev then fcGo cs prev (freq + 1) acc
    else fcGo cs c 1 (acc ++ [Node.new prev freq])

/-- `freq_count`; `none` embeds the `expect("Input cannot be empty")` panic. -/
def freq_count (text : List Nat) : Option (List Node) :=
  match sortChars text with
  | [] => none
  | p :: rest => some (fcGo (p :: rest) p 0 [])

/-! ### `construct_huffman_tree` -/

/-- The merged node of one loop iteration: sentinel letter `'\0'`, summed
frequency, first pop as left child, second pop as right child. -/
def mergeNodes (a b : Node) : Node := .mk 0 (a.freq + b.freq) (some a) (some b)

/-- The `while pq.len() > 1` loop of `construct_huffman_tree`, followed by the
final `pq.pop().unwrap()` (`none` embeds the panic on an empty heap).  Each
iteration shrinks the heap by one, so `fuel = h.length` (what the caller
passes) makes the loop structurally recursive and can never run out. -/
def buildLoop : Nat → List Node → Option Node
  | 0, h => (hpop h).map (·.1)
  | fuel + 1, h =>
    if h.length ≤ 1 then (hpop h).map (·.1)
    else
      match hpop h with
      | none => none
      | some (a, h₁) =>
        match hpop h₁ with
        | none => none
        | some (b, h₂) => buildLoop fuel (hpush h₂ (mergeNodes a b))

/-- `construct_huffman_tree`: push every frequency node, run the merge loop. -/
def construct_huffman_tree (freq : List Node) : Option Node :=
  buildLoop (freq.foldl hpush []).length (freq.foldl hpush [])

/-! ### `to_hashmap` -/

/-- `HashMap::insert` on the association-list model: replace or append. -/
def mapInsert : List (Nat × List Nat) → Nat → List Nat → List (Nat × List Nat)
  | [], k, v => [(k, v)]
  | (k', v') :: rest, k, v =>
    if k' = k then (k, v) :: rest else (k', v') :: mapInsert rest k v

/-- `HashMap::get`. -/
def mapGet (hm : List (Nat × List Nat)) (k : Nat) : Option (List Nat) :=
  (hm.find? (fun e => e.1 = k)).map (·.2)

/-- The inner `encode` of `to_hashmap`: at a leaf record the accumulated path,
otherwise recurse left with `encoding + "0"` then right with
`encoding + "1"` ('0' = 48, '1' = 49). -/
def encodeGo : Node → List Nat → List (Nat × List Nat) → List (Nat × List Nat)
  | .mk letter _ none _, enc, hm => mapInsert hm letter enc
  | .mk _ _ (some l) right, enc, hm =>
    let hm₁ := encodeGo l (enc ++ [48]) hm
    match right with
    | some r => encodeGo r (enc ++ [49]) hm₁
    | none => hm₁

/-- `to_hashmap`: a root leaf gets the explicit one-bit code `"0"`; otherwise
run `encode` from the empty path. -/
def to_hashmap (node : Node) : List (Nat × List Nat) :=
  if node.left.isNone then [(node.letter, [48])]
  else encodeGo node [] []

/-! ### tree serialization -/

/-- `to_string`: post-order traversal emitting each node's `letter`
(internal nodes emit their sentinel letter `'\0'`). -/
def to_string : Node → List Nat
  | .mk letter _ left right =>
    (match left with
      | some l => to_string l
      | none => []) ++
    (match right with
      | some r => to_string r
      | none => []) ++ [letter]

/-- UTF-8 encoding of one Unicode scalar value (what `String::into_bytes`
does to each char). -/
def utf8EncodeChar (c : Nat) : List Nat :=
  if c < 0x80 then [c]
  else if c < 0x800 then
    [0xC0 ||| (c >>> 6), 0x80 ||| (c &&& 0x3F)]
  else if c < 0x10000 then
    [0xE0 ||| (c >>> 12), 0x80 ||| ((c >>> 6) &&& 0x3F), 0x80 ||| (c &&& 0x3F)]
  else
    [0xF0 ||| (c >>> 18), 0x80 ||| ((c >>> 12) &&& 0x3F),
      0x80 ||| ((c >>> 6) &&& 0x3F), 0x80 ||| (c &&& 0x3F)]

/-- `String::into_bytes`. -/
def utf8Bytes (s : List Nat) : List Nat := s.foldr (fun c acc => utf8EncodeChar c ++ acc) []

/-- `embed_tree`: the serialized tree bytes with their length prepended;
`compressed_data.len() as u8` truncates the length modulo 256. -/
def embed_tree (huffman_node : Node) : List Nat :=
  let s := utf8Bytes (to_string huffman_node)
  (s.length % 256) :: s

/-! ### `compress_data` -/

/-- One bit of the packing loop on state `(byte, count, byte_stream)`:
`byte = byte << 1 | bit` (u8, hence `% 256`), `count = (count + 1) % 8`,
flushing the byte when `count` wraps to 0. -/
def packBit (st : Nat × Nat × List Nat) (bit : Bool) : Nat × Nat × List Nat :=
  let byte := ((st.1 <<< 1) % 256) ||| (if bit then 1 else 0)
  let count := (st.2.1 + 1) % 8
  if count = 0 then (0, 0, st.2.2 ++ [byte]) else (byte, count, st.2.2)

/-- The `for c in text.chars()` loop of `compress_data`: look each char up in
the code map (`none` embeds the `unwrap` panic on a missing key) and pack its
code bits; a code byte `e` is the bit `(e - '0') != 0`. -/
def cdGo (hm : List (Nat × List Nat)) :
    List Nat → Nat × Nat × List Nat → Option (Nat × Nat × List Nat)
  | [], st => some st
  | c :: cs, st =>
    match mapGet hm c with
    | none => none
    | some enc => cdGo hm cs (enc.foldl (fun s e => packBit s ((e - 48) != 0)) st)

/-- `compress_data`: pack all code bits, then prepend the padding byte; a
partially filled last byte is left-shifted by `padding = 8 - count`. -/
def compress_data (text : List Nat) (huffman_node : Node) : Option (List Nat) :=
  let hm := to_hashmap huffman_node
  match cdGo hm text (0, 0, []) with
  | none => none
  | some (byte, count, stream) =>
    if count ≠ 0 then
      let padding := 8 - count
      some (padding :: (stream ++ [(byte <<< padding) % 256]))
    else some (0 :: stream)

/-- `compress`: `[tree_length][tree bytes][padding][packed data]`. -/
def compress (text : List Nat) : Option (List Nat) :=
  match freq_count text with
  | none => none
  | some frequency =>
    match construct_huffman_tree frequency with
    | none => none
    | some huffman_tree =>
      match compress_data text huffman_tree with
      | none => none
      | some dataBytes => some (embed_tree huffman_tree ++ dataBytes)

/-! ### `construct_tree_from_postorder` -/

/-- The stack loop: a non-zero byte pushes a leaf (`*c as char`, freq 0); a
zero byte pops `left` then `right` (so the element below the top becomes the
left child, the top the right child) and pushes the merged node.  `none`
embeds the `expect("Input contains Null byte")` panics. -/
def ctfpGo : List Nat → List Node → Option (List Node)
  | [], stack => some stack
  | c :: cs, stack =>
    if c = 0 then
      match stack with
      | a :: b :: rest => ctfpGo cs (Node.mk 0 0 (some b) (some a) :: rest)
      | _ => none
    else ctfpGo cs (Node.mk c 0 none none :: stack)

/-- `construct_tree_from_postorder`: run the stack loop and return the final
`stack.pop().unwrap()` (the top; leftover stack entries are ignored). -/
def construct_tree_from_postorder (postorder : List Nat) : Option Node :=
  match ctfpGo postorder [] with
  | none => none
  | some stack => stack.head?

/-! ### `decompress_data` -/

/-- The inner 8-iteration loop expanding one byte MSB-first:
`bit = (character >> 7 & 1) != 0; character <<= 1` (u8, hence `% 256`). -/
def byteBitsGo : Nat → Nat → List Bool
  | _, 0 => []
  | c, k + 1 => (((c >>> 7) &&& 1) != 0) :: byteBitsGo ((c <<< 1) % 256) k

def byteBits (c : Nat) : List Bool := byteBitsGo c 8

/-- The decoding loop over the bit stream plus the final
`if tmp != tree { output.push(tmp.letter) }` flush.  Within an iteration: if
the cursor is a leaf, emit its letter and reset to the root; then unwrap both
children (`none` embeds the panic) and step by the bit. -/
def decodeLoop (tree : Node) : List Bool → Node → List Nat → Option (List Nat)
  | [], tmp, out => some (if tmp ≠ tree then out ++ [tmp.letter] else out)
  | bit :: bs, tmp, out =>
    match (if tmp.left.isNone then (tree, out ++ [tmp.letter]) else (tmp, out)) with
    | (cur, out') =>
      match cur.right, cur.left with
      | some r, some l => decodeLoop tree bs (if bit then r else l) out'
      | _, _ => none

/-- `decompress_data`: split off the padding byte (`none` embeds the
`expect("Data empty")` panic), expand the bytes MSB-first, drop `padding`
bits (`none` embeds the panicking `len - padding` underflow in
`Vec::resize`), then either replicate a degenerate root's letter per bit or
run the decoding loop. -/
def decompress_data (data : List Nat) (tree : Node) : Option (List Nat) :=
  match data with
  | [] => none
  | padding :: rest =>
    let bs := rest.foldl (fun acc b => acc ++ byteBits b) []
    if bs.length < padding then none
    else
      if tree.left.isNone then
        some (List.replicate (bs.take (bs.length - padding)).length tree.letter)
      else decodeLoop tree (bs.take (bs.length - padding)) tree []

/-- `decompress`: read `tree_length`, slice out the post-order bytes (`none`
embeds the panicking out-of-range slice), rebuild the tree, decode the rest. -/
def decompress (data : List Nat) : Option (List Nat) :=
  match data with
  | [] => none
  | n :: rest =>
    if rest.length < n then none
    else
      match construct_tree_from_postorder (rest.take n) with
      | none => none
      | some huffman_tree => decompress_data (rest.drop n) huffman_tree


/-! ### specification-level helpers (not part of the Rust source) -/

/-- The tree with every `freq` replaced by 0: what
`construct_tree_from_postorder` rebuilds (it stores `freq: 0` everywhere). -/
def stripFreq : Node → Node
  | .mk letter _ none none => .mk letter 0 none none
  | .mk letter _ none (some r) => .mk letter 0 none (some (stripFreq r))
  | .mk letter _ (some l) none => .mk letter 0 (some (stripFreq l)) none
  | .mk letter _ (some l) (some r) =>
    .mk letter 0 (some (stripFreq l)) (some (stripFreq r))

/-- Well-formedness of the trees `construct_huffman_tree` builds: every node
has 0 or 2 children, and an internal node carries the sentinel letter `'\0'`
and the sum of its children's frequencies. -/
def WFTree : Node → Prop
  | .mk _ _ none none => True
  | .mk letter freq (some l) (some r) =>
    letter = 0 ∧ freq = l.freq + r.freq ∧ WFTree l ∧ WFTree r
  | _ => False

/-- The leaves of a tree, left to right. -/
def leavesOf : Node → List Node
  | .mk letter freq none r => [.mk letter freq none r]
  | .mk _ _ (some l) none => leavesOf l
  | .mk _ _ (some l) (some r) => leavesOf l ++ leavesOf r

/-- The letters on the leaves, left to right. -/
def leafLetters (n : Node) : List Nat := (leavesOf n).map Node.letter

/-- The binary-heap invariant of the embedded `BinaryHeap` data array: each
child's `freq` is at least its parent's (max-heap for the program's reversed
order = min-heap on `freq`). -/
def IsHeap (a : List Node) : Prop :=
  ∀ i, 0 < i → i < a.length → (hget a ((i - 1) / 2)).freq ≤ (hget a i).freq

/-- The trees the serializer round-trips: full binary, internal nodes carry
the sentinel letter 0 (as all trees built by `construct_huffman_tree` do),
and leaves carry non-NUL ASCII letters (single UTF-8 bytes distinct from the
sentinel). -/
def SerializableTree : Node → Prop
  | .mk letter _ none none => 0 < letter ∧ letter < 128
  | .mk letter _ (some l) (some r) =>
    letter = 0 ∧ SerializableTree l ∧ SerializableTree r
  | _ => False

/-- The heap invariant away from a hole: every parent-child edge not touching
position `pos` is in heap order. -/
def HeapExcept (a : List Node) (pos : Nat) : Prop :=
  ∀ i, 0 < i → i < a.length → i ≠ pos → (i - 1) / 2 ≠ pos →
    (hget a ((i - 1) / 2)).freq ≤ (hget a i).freq

/-- Follow a left/right path from a node (`false` = left, `true` = right). -/
def follow : Node → List Bool → Option Node
  | n, [] => some n
  | n, b :: bs =>
    match n.left, n.right with
    | some l, some r => follow (if b then r else l) bs
    | _, _ => none

/-- The (letter, code string) pairs `encodeGo` inserts, in traversal order. -/
def codeEntries : Node → List Nat → List (Nat × List Nat)
  | .mk letter _ none _, enc => [(letter, enc)]
  | .mk _ _ (some l) right, enc =>
    codeEntries l (enc ++ [48]) ++
      (match right with
        | some r => codeEntries r (enc ++ [49])
        | none => [])

/-- The code string of a path: '0' (48) for left, '1' (49) for right. -/
def pathStr (p : List Bool) : List Nat := p.map (fun b => if b then 49 else 48)

/-- The bit a packed code byte stands for, as `compress_data` reads it. -/
def strToBits (s : List Nat) : List Bool := s.map (fun e => (e - 48) != 0)

/-- Pack a whole bit list (the body of the `compress_data` loop). -/
def packList (bs : List Bool) (st : Nat × Nat × List Nat) : Nat × Nat × List Nat :=
  bs.foldl packBit st

/-- The low `count` bits of `byte`, most significant first. -/
def bufBits (byte count : Nat) : List Bool :=
  (List.range count).map (fun i => byte.testBit (count - 1 - i))

/-- The bit stream a packer state stands for: the flushed bytes' bits
followed by the bits in the partial byte. -/
def packedBitsOf (st : Nat × Nat × List Nat) : List Bool :=
  st.2.2.flatMap byteBits ++ bufBits st.1 st.2.1

/-- The bit stream `compress_data` packs for a text: each char's code string
looked up in the tree's map, each code byte read as the bit `(e - 48) != 0`. -/
def codeBits (tree : Node) (text : List Nat) : List Bool :=
  text.flatMap fun c => strToBits ((mapGet (to_hashmap tree) c).getD [])

/-- The input "abab...ab" of length `2 * n`. -/
def abPattern (n : Nat) : List Nat := (List.replicate n [97, 98]).flatten

/-- A chain tree: `c3Spine k` has `k + 1` leaves (letter 1) and `k` internal
nodes, so its serialized form is `2k + 1` bytes. -/
def c3Spine : Nat → Node
  | 0 => .mk 1 1 none none
  | k + 1 => .mk 0 1 (some (c3Spine k)) (some (.mk 1 1 none none))

/-! ### basic length lemmas -/

theorem siftUpGo_length (e : Node) (start : Nat) :
    ∀ (fuel : Nat) (a : List Node) (pos : Nat),
      (siftUpGo e start fuel a pos).1.length = a.length
  | 0, a, pos => by simp [siftUpGo]
  | fuel + 1, a, pos => by
    rw [siftUpGo]
    split
    · split
      · simp
      · rw [siftUpGo_length e start fuel]
        simp
    · simp

theorem sdbGo_length :
    ∀ (fuel : Nat) (a : List Node) (pos : Nat),
      (sdbGo fuel a pos).1.length = a.length
  | 0, a, pos => by simp [sdbGo]
  | fuel + 1, a, pos => by
    rw [sdbGo]
    split
    · rw [sdbGo_length fuel]
      simp
    · split <;> simp

theorem hpush_length (a : List Node) (x : Node) :
    (hpush a x).length = a.length + 1 := by
  simp [hpush, siftUpGo_length]

theorem siftDownToBottom_length (a : List Node) (pos : Nat) :
    (siftDownToBottom a pos).length = a.length := by
  simp [siftDownToBottom, siftUpGo_length, sdbGo_length]

theorem hpop_length (a : List Node) (x : Node) (a' : List Node)
    (h : hpop a = some (x, a')) : a'.length + 1 = a.length := by
  unfold hpop at h
  split at h
  · exact absurd h (by simp)
  · rename_i hne
    have ha : a.length ≠ 0 := by
      simpa [List.isEmpty_iff, List.length_eq_zero] using hne
    split at h
    · rename_i hrest
      simp only [Option.some.injEq, Prod.mk.injEq] at h
      obtain ⟨h1, h2⟩ := h
      subst h2
      have hl : a.dropLast.length = 0 := by
        rw [List.isEmpty_iff] at hrest
        simp [hrest]
      simp only [List.length_dropLast] at hl
      simp only [List.length_nil]
      omega
    · rename_i hrest
      simp only [Option.some.injEq, Prod.mk.injEq] at h
      obtain ⟨h1, h2⟩ := h
      subst h2
      rw [List.isEmpty_iff] at hrest
      have hl : a.dropLast.length ≠ 0 := fun h0 =>
        hrest (List.length_eq_zero.mp h0)
      simp only [List.length_dropLast] at hl
      simp only [siftDownToBottom_length, List.length_set, List.length_dropLast]
      omega


/-! ### claim theorems: concrete and structural facts -/

/-- C8: on the single-distinct-symbol input "aaaa", `compress` emits the
container `[1, 97, 4, 0]` — tree length 1, tree bytes just `'a'` — the root
leaf's code in the map is the one-bit string "0", and `decompress` of that
container returns "aaaa". -/
theorem c8_degenerate_single_symbol :
    compress [97, 97, 97, 97] = some [1, 97, 4, 0] ∧
    ((freq_count [97, 97, 97, 97]).bind construct_huffman_tree).map to_hashmap
      = some [(97, [48])] ∧
    decompress [1, 97, 4, 0] = some [97, 97, 97, 97] :=
  ⟨by decide, by decide, by decide⟩

/-- C9: `compress` is a deterministic function of its input — two calls on
identical inputs produce identical containers. -/
theorem c9_compress_deterministic (t₁ t₂ : List Nat) (h : t₁ = t₂) :
    compress t₁ = compress t₂ := by rw [h]

theorem c9_compress_deterministic_witness :
    compress [97, 98] = compress [97, 98] :=
  c9_compress_deterministic [97, 98] [97, 98] rfl

/-- C4 (the claim fails on the code): on the container with tree
"ab\0c\0" (three leaves, depth two on the left), padding 7 and one data
byte, the single unpacked bit `0` leaves the decoding cursor at the internal
node above `a`/`b`; instead of failing, `decompress` executes
`if tmp != tree {{ output.push(tmp.letter) }}`, appends the internal node's
sentinel letter `'\0'`, and returns the string "\0". -/
theorem c4_midpath_returns_sentinel :
    decompress [5, 97, 98, 0, 99, 0, 7, 0] = some [0] := by decide

/-- C1 counterexample: `T = [255, 255]` (two `'ÿ'` chars) is non-empty,
contains no NUL symbol, and its serialized tree is 2 bytes (≤ 255); yet the
round trip returns `[191, 191]` ("¿¿"), because serialization writes the
leaf char in UTF-8 (`[195, 191]`) while deserialization reads single bytes
back as chars. -/
theorem c1_round_trip_cex :
    ([255, 255] : List Nat) ≠ [] ∧
    (∀ c ∈ ([255, 255] : List Nat), c ≠ 0) ∧
    ((freq_count [255, 255]).bind construct_huffman_tree).map
      (fun t => (utf8Bytes (to_string t)).length) = some 2 ∧
    (compress [255, 255]).bind decompress = some [191, 191] ∧
    (compress [255, 255]).bind decompress ≠ some [255, 255] :=
  ⟨by decide, by decide, by decide, by decide, by decide⟩

/-- C6 counterexample: the full binary tree with leaves `'a'` (97) and `'ÿ'`
(255) — both non-NUL — serializes to `[97, 195, 191, 0]` (the `'ÿ'` leaf
becomes two UTF-8 bytes), and deserializing that reconstructs a tree whose
leaves are 195 and 191 and which has lost the `'a'` leaf entirely: neither
the shape nor the leaf symbols survive. -/
theorem c6_postorder_cex :
    construct_tree_from_postorder
        (utf8Bytes (to_string
          (Node.mk 0 3 (some (Node.mk 97 1 none none))
            (some (Node.mk 255 2 none none)))))
      = some (Node.mk 0 0 (some (Node.mk 195 0 none none))
          (some (Node.mk 191 0 none none))) := by decide

/-- C3 (the claim fails on the code; the spec states the intended behavior):
for any tree whose serialized form exceeds 255 bytes there is no
`OversizedTreeError` — no error exists anywhere in `compress` — instead
`embed_tree` silently truncates the length byte to `length % 256` and
`compress` emits that corrupt container. -/
theorem c3_oversized_tree_truncated (n : Node)
    (h : 255 < (utf8Bytes (to_string n)).length) :
    embed_tree n
      = ((utf8Bytes (to_string n)).length % 256) :: utf8Bytes (to_string n) ∧
    (utf8Bytes (to_string n)).length % 256 ≠ (utf8Bytes (to_string n)).length ∧
    (∀ text fv db, freq_count text = some fv →
      construct_huffman_tree fv = some n →
      compress_data text n = some db →
      compress text = some (embed_tree n ++ db)) := by
  refine ⟨rfl, ?_, ?_⟩
  · have : (utf8Bytes (to_string n)).length % 256 < 256 := Nat.mod_lt _ (by omega)
    omega
  · intro text fv db h₁ h₂ h₃
    unfold compress
    simp only [h₁, h₂, h₃]

theorem c3_oversized_tree_truncated_witness :
    embed_tree (c3Spine 128)
      = ((utf8Bytes (to_string (c3Spine 128))).length % 256)
          :: utf8Bytes (to_string (c3Spine 128)) ∧
    (utf8Bytes (to_string (c3Spine 128))).length % 256
      ≠ (utf8Bytes (to_string (c3Spine 128))).length ∧
    (∀ text fv db, freq_count text = some fv →
      construct_huffman_tree fv = some (c3Spine 128) →
      compress_data text (c3Spine 128) = some db →
      compress text = some (embed_tree (c3Spine 128) ++ db)) :=
  c3_oversized_tree_truncated (c3Spine 128) (by decide)

/-! ### heap permutation lemmas -/

theorem hget_eq {a : List Node} {i : Nat} (h : i < a.length) : hget a i = a[i] :=
  List.getD_eq_getElem a default h

theorem count_set_add (a : List Node) (n : Nat) (y c : Node) (h : n < a.length) :
    (a.set n y).count c + (if hget a n = c then 1 else 0)
      = a.count c + (if y = c then 1 else 0) := by
  rw [List.set_eq_take_cons_drop _ h]
  conv_rhs => rw [← List.take_append_drop n a]
  rw [List.drop_eq_getElem_cons h, hget_eq h]
  simp only [List.count_append, List.count_cons, beq_iff_eq]
  split_ifs <;> omega

theorem perm_set_set (a : List Node) (i j : Nat) (e : Node) (hij : i ≠ j)
    (hi : i < a.length) (hj : j < a.length) :
    List.Perm ((a.set i (hget a j)).set j e) (a.set i e) := by
  rw [List.perm_iff_count]
  intro c
  have hj' : j < (a.set i (hget a j)).length := by simpa using hj
  have h1 := count_set_add a i (hget a j) c hi
  have h2 := count_set_add (a.set i (hget a j)) j e c hj'
  have h3 := count_set_add a i e c hi
  have h4 : hget (a.set i (hget a j)) j = hget a j := by
    rw [hget_eq hj']
    conv_rhs => rw [hget_eq hj]
    exact List.getElem_set_of_ne hij _ hj'
  rw [h4] at h2
  split_ifs at h1 h2 h3 <;> omega

theorem siftUpGo_perm (e : Node) (start : Nat) :
    ∀ (fuel : Nat) (a : List Node) (pos : Nat), pos < a.length →
      List.Perm (siftUpGo e start fuel a pos).1 (a.set pos e)
  | 0, a, pos, _ => by simp [siftUpGo]
  | fuel + 1, a, pos, h => by
    rw [siftUpGo]
    split
    · split
      · simp
      · rename_i hlt _
        have hp : (pos - 1) / 2 < pos := by
          have := Nat.div_le_self (pos - 1) 2
          omega
        have hp' : (pos - 1) / 2 < (a.set pos (hget a ((pos - 1) / 2))).length := by
          simp
          omega
        exact (siftUpGo_perm e start fuel _ _ hp').trans
          (perm_set_set a pos ((pos - 1) / 2) e (by omega) h (by omega))
    · simp

theorem hpush_perm (a : List Node) (x : Node) :
    List.Perm (hpush a x) (x :: a) := by
  have h1 : a.length < (a ++ [x]).length := by simp
  have h2 := siftUpGo_perm x 0 a.length (a ++ [x]) a.length h1
  have h3 : (a ++ [x]).set a.length x = a ++ [x] := by
    rw [List.set_eq_take_cons_drop _ h1]
    simp
  rw [h3] at h2
  exact h2.trans (List.perm_append_singleton x a)

theorem sdbGo_pos_lt :
    ∀ (fuel : Nat) (a : List Node) (pos : Nat), pos < a.length →
      (sdbGo fuel a pos).2 < a.length
  | 0, a, pos, h => h
  | fuel + 1, a, pos, h => by
    rw [sdbGo]
    split
    · rename_i hc
      have hcl : sdbChild a pos < a.length := by
        rw [sdbChild]
        split <;> omega
      have := sdbGo_pos_lt fuel (a.set pos (hget a (sdbChild a pos))) (sdbChild a pos)
        (by simpa using hcl)
      simpa using this
    · split
      · simp
        omega
      · exact h

theorem sdbGo_perm :
    ∀ (fuel : Nat) (a : List Node) (pos : Nat) (e : Node), pos < a.length →
      List.Perm ((sdbGo fuel a pos).1.set (sdbGo fuel a pos).2 e) (a.set pos e)
  | 0, a, pos, e, _ => by simp [sdbGo]
  | fuel + 1, a, pos, e, h => by
    rw [sdbGo]
    split
    · rename_i hc
      have hcl : sdbChild a pos < a.length := by
        rw [sdbChild]
        split <;> omega
      have hppos : pos < sdbChild a pos := by
        rw [sdbChild]
        split <;> omega
      have ih := sdbGo_perm fuel (a.set pos (hget a (sdbChild a pos)))
        (sdbChild a pos) e (by simpa using hcl)
      exact ih.trans (perm_set_set a pos (sdbChild a pos) e (by omega) h hcl)
    · split
      · rename_i hc he
        exact perm_set_set a pos (2 * pos + 1) e (by omega) h (by omega)
      · simp

theorem siftDownToBottom_perm (a : List Node) (pos : Nat) (h : pos < a.length) :
    List.Perm (siftDownToBottom a pos) (a.set pos (hget a pos)) := by
  rw [siftDownToBottom]
  have hp2 : (sdbGo a.length a pos).2 < (sdbGo a.length a pos).1.length := by
    rw [sdbGo_length]
    exact sdbGo_pos_lt a.length a pos h
  exact (siftUpGo_perm (hget a pos) pos (sdbGo a.length a pos).2
      (sdbGo a.length a pos).1 (sdbGo a.length a pos).2 hp2).trans
    (sdbGo_perm a.length a pos (hget a pos) h)

theorem set_hget_self (a : List Node) (pos : Nat) (h : pos < a.length) :
    a.set pos (hget a pos) = a := by
  rw [hget, List.getD_eq_getElem _ _ h, List.set_eq_take_cons_drop _ h,
    ← List.drop_eq_getElem_cons h, List.take_append_drop]

theorem hpop_ne_none (a : List Node) (h : a ≠ []) :
    ∃ x a', hpop a = some (x, a') := by
  unfold hpop
  rw [if_neg (by simpa [List.isEmpty_iff] using h)]
  split
  · exact ⟨_, _, rfl⟩
  · exact ⟨_, _, rfl⟩

theorem hpop_perm (a : List Node) (x : Node) (a' : List Node)
    (h : hpop a = some (x, a')) : List.Perm (x :: a') a := by
  unfold hpop at h
  split at h
  · exact absurd h (by simp)
  · rename_i hne
    rw [List.isEmpty_iff] at hne
    split at h
    · rename_i hrest
      rw [List.isEmpty_iff] at hrest
      simp only [Option.some.injEq, Prod.mk.injEq] at h
      obtain ⟨h1, h2⟩ := h
      subst h2
      cases a with
      | nil => exact absurd rfl hne
      | cons y t =>
        have ht : t = [] := by
          have h3 : (y :: t).dropLast.length = 0 := by simp [hrest]
          simp only [List.length_dropLast, List.length_cons] at h3
          exact List.length_eq_zero.mp (by omega)
        subst ht
        rw [← h1]
        exact List.Perm.refl _
    · rename_i hrest
      rw [List.isEmpty_iff] at hrest
      simp only [Option.some.injEq, Prod.mk.injEq] at h
      obtain ⟨h1, h2⟩ := h
      have hdl : 0 < a.dropLast.length :=
        Nat.pos_of_ne_zero (fun h0 => hrest (List.length_eq_zero.mp h0))
      have hperm : List.Perm a' (a.dropLast.set 0 (hget a (a.length - 1))) := by
        rw [← h2]
        have hs := siftDownToBottom_perm (a.dropLast.set 0 (hget a (a.length - 1))) 0
          (by simpa using hdl)
        rw [set_hget_self _ _ (by simpa using hdl)] at hs
        exact hs
      have hx : x = hget a.dropLast 0 := h1.symm
      -- a.dropLast = x :: tail, and the set replaces x by the last element
      obtain ⟨t, ht⟩ : ∃ t, a.dropLast = hget a.dropLast 0 :: t := by
        cases hd : a.dropLast with
        | nil => exact absurd hd hrest
        | cons y t =>
          refine ⟨t, ?_⟩
          simp [hget]
      have hne' : a ≠ [] := fun h0 => hne h0
      have hlast : hget a (a.length - 1) = a.getLast hne' := by
        have h4 : a.length ≠ 0 := fun h0 => hne (List.length_eq_zero.mp h0)
        rw [hget, List.getD_eq_getElem _ _ (by omega), List.getLast_eq_getElem]
      have s1 : List.Perm (x :: a')
          (x :: a.dropLast.set 0 (hget a (a.length - 1))) := hperm.cons x
      have s2 : x :: a.dropLast.set 0 (hget a (a.length - 1))
          = x :: (hget a (a.length - 1)) :: t := by rw [ht]; rfl
      have s3 : List.Perm (x :: (hget a (a.length - 1)) :: t)
          (x :: (t ++ [hget a (a.length - 1)])) :=
        List.Perm.cons x (List.perm_append_singleton _ _).symm
      rw [s2] at s1
      refine (s1.trans s3).trans ?_
      have s4 : x :: (t ++ [hget a (a.length - 1)])
          = a.dropLast ++ [a.getLast hne'] := by
        rw [ht, hx, hlast]
        rfl
      rw [s4, List.dropLast_append_getLast hne']

theorem foldl_hpush_perm :
    ∀ (l acc : List Node), List.Perm (l.foldl hpush acc) (acc ++ l)
  | [], acc => by simp
  | x :: xs, acc => by
    have ih := foldl_hpush_perm xs (hpush acc x)
    refine (List.foldl_cons .. ▸ ih).trans ?_
    have h1 : List.Perm (hpush acc x ++ xs) ((x :: acc) ++ xs) :=
      (hpush_perm acc x).append_right xs
    refine h1.trans ?_
    simpa using (List.perm_middle).symm

/-! ### the merge loop: invariants and the multiset of leaves -/

theorem buildLoop_invariant (P : Node → Prop)
    (Pm : ∀ a b, P a → P b → P (mergeNodes a b)) :
    ∀ (fuel : Nat) (h : List Node), h ≠ [] → h.length ≤ fuel + 1 →
      (∀ x ∈ h, P x) → ∃ t, buildLoop fuel h = some t ∧ P t := by
  intro fuel
  induction fuel with
  | zero =>
    intro h hne hlen hP
    cases h with
    | nil => exact absurd rfl hne
    | cons y t =>
      have ht : t = [] := by
        simp only [List.length_cons] at hlen
        exact List.length_eq_zero.mp (by omega)
      subst ht
      exact ⟨y, rfl, hP y (by simp)⟩
  | succ fuel ih =>
    intro h hne hlen hP
    by_cases hle : h.length ≤ 1
    · cases h with
      | nil => exact absurd rfl hne
      | cons y t =>
        have ht : t = [] := by
          simp only [List.length_cons] at hle
          exact List.length_eq_zero.mp (by omega)
        subst ht
        exact ⟨y, rfl, hP y (by simp)⟩
    · obtain ⟨a, h₁, hpa⟩ := hpop_ne_none h hne
      have hlen1 := hpop_length h a h₁ hpa
      have hperm1 := hpop_perm h a h₁ hpa
      have hne1 : h₁ ≠ [] := by
        intro h0
        subst h0
        simp only [List.length_nil] at hlen1
        omega
      obtain ⟨b, h₂, hpb⟩ := hpop_ne_none h₁ hne1
      have hlen2 := hpop_length h₁ b h₂ hpb
      have hperm2 := hpop_perm h₁ b h₂ hpb
      have hPa : P a := hP a (hperm1.mem_iff.mp (by simp))
      have hmem1 : ∀ x ∈ h₁, x ∈ h := fun x hx =>
        hperm1.mem_iff.mp (by simp [hx])
      have hPb : P b := hP b (hmem1 b (hperm2.mem_iff.mp (by simp)))
      have hmem2 : ∀ x ∈ h₂, x ∈ h := fun x hx =>
        hmem1 x (hperm2.mem_iff.mp (by simp [hx]))
      have hpp : ∀ x ∈ hpush h₂ (mergeNodes a b), P x := by
        intro x hx
        rcases List.mem_cons.mp
            ((hpush_perm h₂ (mergeNodes a b)).mem_iff.mp hx) with h0 | h0
        · exact h0 ▸ Pm a b hPa hPb
        · exact hP x (hmem2 x h0)
      have hlen3 : (hpush h₂ (mergeNodes a b)).length ≤ fuel + 1 := by
        rw [hpush_length]
        omega
      have hne3 : hpush h₂ (mergeNodes a b) ≠ [] := by
        intro h0
        have := hpush_length h₂ (mergeNodes a b)
        rw [h0] at this
        simp at this
      obtain ⟨t, hbl, hPt⟩ := ih _ hne3 hlen3 hpp
      refine ⟨t, ?_, hPt⟩
      rw [buildLoop, if_neg hle]
      simp only [hpa, hpb]
      exact hbl

theorem buildLoop_leaves :
    ∀ (fuel : Nat) (h : List Node), h ≠ [] → h.length ≤ fuel + 1 →
      ∃ t, buildLoop fuel h = some t ∧
        List.Perm (leavesOf t) (h.flatMap leavesOf) := by
  intro fuel
  induction fuel with
  | zero =>
    intro h hne hlen
    cases h with
    | nil => exact absurd rfl hne
    | cons y t =>
      have ht : t = [] := by
        simp only [List.length_cons] at hlen
        exact List.length_eq_zero.mp (by omega)
      subst ht
      exact ⟨y, rfl, by simp⟩
  | succ fuel ih =>
    intro h hne hlen
    by_cases hle : h.length ≤ 1
    · cases h with
      | nil => exact absurd rfl hne
      | cons y t =>
        have ht : t = [] := by
          simp only [List.length_cons] at hle
          exact List.length_eq_zero.mp (by omega)
        subst ht
        exact ⟨y, rfl, by simp⟩
    · obtain ⟨a, h₁, hpa⟩ := hpop_ne_none h hne
      have hlen1 := hpop_length h a h₁ hpa
      have hperm1 := hpop_perm h a h₁ hpa
      have hne1 : h₁ ≠ [] := by
        intro h0
        subst h0
        simp only [List.length_nil] at hlen1
        omega
      obtain ⟨b, h₂, hpb⟩ := hpop_ne_none h₁ hne1
      have hlen2 := hpop_length h₁ b h₂ hpb
      have hperm2 := hpop_perm h₁ b h₂ hpb
      have hlen3 : (hpush h₂ (mergeNodes a b)).length ≤ fuel + 1 := by
        rw [hpush_length]
        omega
      have hne3 : hpush h₂ (mergeNodes a b) ≠ [] := by
        intro h0
        have := hpush_length h₂ (mergeNodes a b)
        rw [h0] at this
        simp at this
      obtain ⟨t, hbl, hLt⟩ := ih _ hne3 hlen3
      refine ⟨t, ?_, ?_⟩
      · rw [buildLoop, if_neg hle]
        simp only [hpa, hpb]
        exact hbl
      · refine hLt.trans ?_
        have p1 : List.Perm ((hpush h₂ (mergeNodes a b)).flatMap leavesOf)
            ((mergeNodes a b :: h₂).flatMap leavesOf) :=
          (hpush_perm h₂ (mergeNodes a b)).flatMap_right leavesOf
        have e1 : (mergeNodes a b :: h₂).flatMap leavesOf
            = (leavesOf a ++ leavesOf b) ++ h₂.flatMap leavesOf := by
          simp [mergeNodes, leavesOf]
        have p2 : List.Perm ((leavesOf a ++ leavesOf b) ++ h₂.flatMap leavesOf)
            (leavesOf a ++ (b :: h₂).flatMap leavesOf) := by
          simp [List.append_assoc]
        have p3 : List.Perm (leavesOf a ++ (b :: h₂).flatMap leavesOf)
            (leavesOf a ++ h₁.flatMap leavesOf) :=
          (hperm2.flatMap_right leavesOf).append_left (leavesOf a)
        have p4 : List.Perm (leavesOf a ++ h₁.flatMap leavesOf)
            (h.flatMap leavesOf) := by
          have := hperm1.flatMap_right leavesOf
          simpa using this
        exact (((p1.trans (e1 ▸ List.Perm.refl _)).trans p2).trans p3).trans p4

/-- On a non-empty list of leaf nodes, `construct_huffman_tree` succeeds and
the resulting tree is well-formed. -/
theorem tree_wf_of_leaf_list (fv : List Node) (hne : fv ≠ [])
    (hl : ∀ x ∈ fv, x.left = none ∧ x.right = none) :
    ∃ t, construct_huffman_tree fv = some t ∧ WFTree t := by
  have hperm := foldl_hpush_perm fv []
  simp only [List.nil_append] at hperm
  have hne' : fv.foldl hpush [] ≠ [] := by
    intro h0
    rw [h0] at hperm
    exact hne (List.Perm.nil_eq hperm).symm
  have hP : ∀ x ∈ fv.foldl hpush [], WFTree x := by
    intro x hx
    obtain ⟨hx1, hx2⟩ := hl x (hperm.mem_iff.mp hx)
    cases x with
    | mk letter freq left right =>
      simp only [Node.left] at hx1
      simp only [Node.right] at hx2
      subst hx1
      subst hx2
      trivial
  have hm : ∀ a b, WFTree a → WFTree b → WFTree (mergeNodes a b) := by
    intro a b ha hb
    exact ⟨rfl, rfl, ha, hb⟩
  obtain ⟨t, hbl, hPt⟩ := buildLoop_invariant WFTree hm
    (fv.foldl hpush []).length (fv.foldl hpush []) hne'
    (by omega) hP
  exact ⟨t, hbl, hPt⟩

/-- C5: for every non-empty frequency list of leaf nodes,
`construct_huffman_tree` returns a tree in which every node has exactly 0 or
2 children, and every internal node carries the sentinel letter `'\0'` and
the sum of its children's frequencies. -/
theorem c5_tree_wellformed (fv : List Node) (hne : fv ≠ [])
    (hl : ∀ x ∈ fv, x.left = none ∧ x.right = none) :
    ∃ t, construct_huffman_tree fv = some t ∧ WFTree t :=
  tree_wf_of_leaf_list fv hne hl

theorem c5_tree_wellformed_witness :
    ∃ t, construct_huffman_tree [Node.new 97 1, Node.new 98 1] = some t ∧
      WFTree t :=
  c5_tree_wellformed [Node.new 97 1, Node.new 98 1] (by decide)
    (by
      intro x hx
      simp only [List.mem_cons, List.not_mem_nil, or_false] at hx
      rcases hx with rfl | rfl <;> exact ⟨rfl, rfl⟩)

/-! ### heap-order lemmas -/

theorem hget_set_self (a : List Node) (pos : Nat) (v : Node)
    (h : pos < a.length) : hget (a.set pos v) pos = v := by
  rw [hget_eq (by simpa using h)]
  exact List.getElem_set_self ..

theorem hget_set_ne (a : List Node) (pos i : Nat) (v : Node) (h : i ≠ pos) :
    hget (a.set pos v) i = hget a i := by
  by_cases hi : i < a.length
  · rw [hget_eq (by simpa using hi), hget_eq hi]
    exact List.getElem_set_of_ne (fun h0 => h h0.symm) v (by simpa using hi)
  · rw [hget, hget, List.getD_eq_default, List.getD_eq_default]
    · omega
    · simpa using hi

theorem root_min (a : List Node) (ha : IsHeap a) :
    ∀ i, i < a.length → (hget a 0).freq ≤ (hget a i).freq := by
  intro i
  induction i using Nat.strong_induction_on with
  | _ i ih =>
    intro hi
    rcases Nat.eq_zero_or_pos i with h0 | hpos
    · subst h0
      exact le_refl _
    · have hp : (i - 1) / 2 < i := by omega
      exact le_trans (ih _ hp (by omega)) (ha i hpos hi)

theorem place_heap (a : List Node) (pos : Nat) (e : Node)
    (hlt : pos < a.length)
    (hA : HeapExcept a pos)
    (hB1 : ∀ c, 0 < c → c < a.length → (c - 1) / 2 = pos →
      e.freq ≤ (hget a c).freq)
    (hstop : pos = 0 ∨ (hget a ((pos - 1) / 2)).freq ≤ e.freq) :
    IsHeap (a.set pos e) := by
  intro i hi0 hilen
  rw [List.length_set] at hilen
  by_cases hipos : i = pos
  · subst hipos
    rcases hstop with h0 | h0
    · omega
    · rw [hget_set_ne _ _ _ _ (by omega), hget_set_self _ _ _ hlt]
      exact h0
  · by_cases hpar : (i - 1) / 2 = pos
    · rw [hpar, hget_set_self _ _ _ hlt, hget_set_ne _ _ _ _ hipos]
      exact hB1 i hi0 hilen hpar
    · rw [hget_set_ne _ _ _ _ hpar, hget_set_ne _ _ _ _ hipos]
      exact hA i hi0 hilen hipos hpar

theorem siftUpGo_heap (e : Node) :
    ∀ (fuel : Nat) (a : List Node) (pos : Nat),
      pos < a.length → pos ≤ fuel →
      HeapExcept a pos →
      (∀ c, 0 < c → c < a.length → (c - 1) / 2 = pos →
        e.freq ≤ (hget a c).freq) →
      (∀ c, 0 < c → c < a.length → (c - 1) / 2 = pos → 0 < pos →
        (hget a ((pos - 1) / 2)).freq ≤ (hget a c).freq) →
      IsHeap (siftUpGo e 0 fuel a pos).1
  | 0, a, pos, hlt, hle, hA, hB1, _ => by
    have hpos0 : pos = 0 := by omega
    subst hpos0
    exact place_heap a 0 e hlt hA hB1 (Or.inl rfl)
  | fuel + 1, a, pos, hlt, hle, hA, hB1, hB2 => by
    rw [siftUpGo]
    by_cases h0 : 0 < pos
    · rw [if_pos h0]
      by_cases hstop : nodeLe e (hget a ((pos - 1) / 2))
      · rw [if_pos hstop]
        refine place_heap a pos e hlt hA hB1 (Or.inr ?_)
        simpa [nodeLe, decide_eq_true_eq] using hstop
      · rw [if_neg hstop]
        have hmv : e.freq < (hget a ((pos - 1) / 2)).freq := by
          simpa [nodeLe, decide_eq_true_eq] using hstop
        have hplt : (pos - 1) / 2 < pos := by omega
        have hA' : HeapExcept (a.set pos (hget a ((pos - 1) / 2)))
            ((pos - 1) / 2) := by
          intro i hi0 hilen hip hipar
          rw [List.length_set] at hilen
          by_cases hipos : i = pos
          · subst hipos
            exact absurd rfl hipar
          · by_cases hpar : (i - 1) / 2 = pos
            · rw [hpar, hget_set_self _ _ _ hlt, hget_set_ne _ _ _ _ hipos]
              exact hB2 i hi0 hilen hpar h0
            · rw [hget_set_ne _ _ _ _ hpar, hget_set_ne _ _ _ _ hipos]
              exact hA i hi0 hilen hipos hpar
        have hB1' : ∀ c, 0 < c →
            c < (a.set pos (hget a ((pos - 1) / 2))).length →
            (c - 1) / 2 = (pos - 1) / 2 →
            e.freq ≤ (hget (a.set pos (hget a ((pos - 1) / 2))) c).freq := by
          intro c hc0 hclen hcpar
          rw [List.length_set] at hclen
          by_cases hcpos : c = pos
          · subst hcpos
            rw [hget_set_self _ _ _ hlt]
            omega
          · rw [hget_set_ne _ _ _ _ hcpos]
            have : (hget a ((pos - 1) / 2)).freq ≤ (hget a c).freq := by
              have hcp : (c - 1) / 2 ≠ pos := by omega
              exact hcpar ▸ hA c hc0 hclen hcpos hcp
            omega
        have hB2' : ∀ c, 0 < c →
            c < (a.set pos (hget a ((pos - 1) / 2))).length →
            (c - 1) / 2 = (pos - 1) / 2 → 0 < (pos - 1) / 2 →
            (hget (a.set pos (hget a ((pos - 1) / 2)))
                (((pos - 1) / 2 - 1) / 2)).freq
              ≤ (hget (a.set pos (hget a ((pos - 1) / 2))) c).freq := by
          intro c hc0 hclen hcpar hp0
          rw [List.length_set] at hclen
          have hq : ((pos - 1) / 2 - 1) / 2 ≠ pos := by omega
          rw [hget_set_ne _ _ _ _ hq]
          have hedge : (hget a (((pos - 1) / 2 - 1) / 2)).freq
              ≤ (hget a ((pos - 1) / 2)).freq := by
            have := hA ((pos - 1) / 2) hp0 (by omega) (by omega) (by omega)
            exact this
          by_cases hcpos : c = pos
          · subst hcpos
            rw [hget_set_self _ _ _ hlt]
            exact hedge
          · rw [hget_set_ne _ _ _ _ hcpos]
            have : (hget a ((pos - 1) / 2)).freq ≤ (hget a c).freq := by
              have hcp : (c - 1) / 2 ≠ pos := by omega
              exact hcpar ▸ hA c hc0 hclen hcpos hcp
            omega
        exact siftUpGo_heap e fuel _ ((pos - 1) / 2) (by simpa using hplt.trans hlt)
          (by omega) hA' hB1' hB2'
    · rw [if_neg h0]
      have hpos0 : pos = 0 := by omega
      subst hpos0
      exact place_heap a 0 e hlt hA hB1 (Or.inl rfl)

theorem hpush_heap (a : List Node) (x : Node) (ha : IsHeap a) :
    IsHeap (hpush a x) := by
  rw [hpush]
  refine siftUpGo_heap x a.length (a ++ [x]) a.length (by simp) (le_refl _)
    ?_ ?_ ?_
  · intro i hi0 hilen hip hipar
    have hi : i < a.length := by
      simp only [List.length_append, List.length_cons, List.length_nil] at hilen
      omega
    have hpi : (i - 1) / 2 < a.length := by omega
    rw [hget, hget, List.getD_append _ _ _ _ hi, List.getD_append _ _ _ _ hpi]
    exact ha i hi0 hi
  · intro c hc0 hclen hcpar
    simp only [List.length_append, List.length_cons, List.length_nil] at hclen
    omega
  · intro c hc0 hclen hcpar hp
    simp only [List.length_append, List.length_cons, List.length_nil] at hclen
    omega

theorem sdbChild_parent (a : List Node) (pos : Nat) :
    (sdbChild a pos - 1) / 2 = pos := by
  rw [sdbChild]
  split <;> omega

theorem sdbChild_range (a : List Node) (pos : Nat) :
    sdbChild a pos = 2 * pos + 1 ∨ sdbChild a pos = 2 * pos + 2 := by
  rw [sdbChild]
  split <;> simp

theorem sdbChild_min (a : List Node) (pos : Nat) (j : Nat)
    (hj : j = 2 * pos + 1 ∨ j = 2 * pos + 2) :
    (hget a (sdbChild a pos)).freq ≤ (hget a j).freq := by
  rw [sdbChild]
  split
  · rename_i hle
    simp only [nodeLe, decide_eq_true_eq] at hle
    rcases hj with rfl | rfl
    · exact hle
    · exact le_refl _
  · rename_i hle
    simp only [nodeLe, decide_eq_true_eq] at hle
    rcases hj with rfl | rfl
    · exact le_refl _
    · omega

theorem sdbGo_heap :
    ∀ (fuel : Nat) (a : List Node) (pos : Nat),
      pos < a.length → a.length - pos ≤ fuel + 1 →
      HeapExcept a pos →
      (∀ c, 0 < c → c < a.length → (c - 1) / 2 = pos → 0 < pos →
        (hget a ((pos - 1) / 2)).freq ≤ (hget a c).freq) →
      HeapExcept (sdbGo fuel a pos).1 (sdbGo fuel a pos).2 ∧
      (sdbGo fuel a pos).2 < a.length ∧
      (∀ c, 0 < c → c < a.length → (c - 1) / 2 = (sdbGo fuel a pos).2 → False)
  | 0, a, pos, hlt, hfuel, hA, hD => by
    refine ⟨hA, hlt, ?_⟩
    intro c hc0 hclen hcpar
    simp only [sdbGo] at hcpar
    omega
  | fuel + 1, a, pos, hlt, hfuel, hA, hD => by
    rw [sdbGo]
    by_cases hcase : 2 * pos + 2 < a.length
    · rw [if_pos hcase]
      have hc1 : pos < sdbChild a pos := by
        rcases sdbChild_range a pos with h | h <;> omega
      have hc2 : sdbChild a pos < a.length := by
        rcases sdbChild_range a pos with h | h <;> omega
      have hcp := sdbChild_parent a pos
      have hA' : HeapExcept (a.set pos (hget a (sdbChild a pos)))
          (sdbChild a pos) := by
        intro i hi0 hilen hic hipar
        rw [List.length_set] at hilen
        by_cases hipos : i = pos
        · subst hipos
          have h0 : 0 < i := hi0
          have hq : (i - 1) / 2 ≠ i := by omega
          rw [hget_set_ne _ _ _ _ hq, hget_set_self _ _ _ hlt]
          exact hD (sdbChild a i) (by omega) hc2 hcp hi0
        · by_cases hpar : (i - 1) / 2 = pos
          · rw [hpar, hget_set_self _ _ _ hlt, hget_set_ne _ _ _ _ hipos]
            exact sdbChild_min a pos i (by omega)
          · rw [hget_set_ne _ _ _ _ hpar, hget_set_ne _ _ _ _ hipos]
            exact hA i hi0 hilen hipos hpar
      have hD' : ∀ c, 0 < c →
          c < (a.set pos (hget a (sdbChild a pos))).length →
          (c - 1) / 2 = sdbChild a pos → 0 < sdbChild a pos →
          (hget (a.set pos (hget a (sdbChild a pos)))
              ((sdbChild a pos - 1) / 2)).freq
            ≤ (hget (a.set pos (hget a (sdbChild a pos))) c).freq := by
        intro c hc0 hclen hcpar _
        rw [List.length_set] at hclen
        rw [hcp, hget_set_self _ _ _ hlt, hget_set_ne _ _ _ _ (by omega)]
        exact (hA c hc0 hclen (by omega) (by omega)).trans'
          (le_of_eq (by rw [hcpar]))
      have ih := sdbGo_heap fuel (a.set pos (hget a (sdbChild a pos)))
        (sdbChild a pos) (by simpa using hc2) (by simp; omega) hA' hD'
      refine ⟨ih.1, ?_, ?_⟩
      · have := ih.2.1
        rwa [List.length_set] at this
      · intro c hc0 hclen hcpar
        exact ih.2.2 c hc0 (by simpa using hclen) hcpar
    · rw [if_neg hcase]
      by_cases heq : 2 * pos + 2 = a.length
      · rw [if_pos heq]
        refine ⟨?_, by dsimp only; omega, ?_⟩
        · intro i hi0 hilen hic hipar
          dsimp only at hilen hic hipar ⊢
          rw [List.length_set] at hilen
          by_cases hipos : i = pos
          · subst hipos
            have hq : (i - 1) / 2 ≠ i := by omega
            rw [hget_set_ne _ _ _ _ hq, hget_set_self _ _ _ hlt]
            exact hD (2 * i + 1) (by omega) (by omega) (by omega) hi0
          · by_cases hpar : (i - 1) / 2 = pos
            · omega
            · rw [hget_set_ne _ _ _ _ hpar, hget_set_ne _ _ _ _ hipos]
              exact hA i hi0 hilen hipos hpar
        · intro c hc0 hclen hcpar
          dsimp only at hcpar
          omega
      · rw [if_neg heq]
        refine ⟨hA, hlt, ?_⟩
        intro c hc0 hclen hcpar
        omega

theorem siftDownToBottom_eq (a : List Node) (pos : Nat) :
    siftDownToBottom a pos
      = (siftUpGo (hget a pos) pos (sdbGo a.length a pos).2
          (sdbGo a.length a pos).1 (sdbGo a.length a pos).2).1 := rfl

theorem hget_dropLast (a : List Node) (i : Nat) (h : i < a.length - 1) :
    hget a.dropLast i = hget a i := by
  rw [hget_eq (by simpa using h), hget_eq (by omega)]
  exact List.getElem_dropLast a i (by simpa using h)

theorem hpop_heap (a : List Node) (x : Node) (a' : List Node) (ha : IsHeap a)
    (h : hpop a = some (x, a')) : IsHeap a' := by
  unfold hpop at h
  split at h
  · exact absurd h (by simp)
  · rename_i hne
    rw [List.isEmpty_iff] at hne
    split at h
    · simp only [Option.some.injEq, Prod.mk.injEq] at h
      rw [← h.2]
      intro i _ hc
      simp only [List.length_nil] at hc
      omega
    · rename_i hrest
      rw [List.isEmpty_iff] at hrest
      simp only [Option.some.injEq, Prod.mk.injEq] at h
      have hdl : 0 < a.dropLast.length :=
        Nat.pos_of_ne_zero (fun h0 => hrest (List.length_eq_zero.mp h0))
      have hal : 1 < a.length := by
        simp only [List.length_dropLast] at hdl
        omega
      have hb : ∀ i, 0 < i → i < a.dropLast.length →
          hget (a.dropLast.set 0 (hget a (a.length - 1))) i = hget a i := by
        intro i hi0 hilen
        rw [hget_set_ne _ _ _ _ (by omega), hget_dropLast a i (by simpa using hilen)]
      have hbA : HeapExcept (a.dropLast.set 0 (hget a (a.length - 1))) 0 := by
        intro i hi0 hilen hip hipar
        rw [List.length_set] at hilen
        rw [hb i hi0 hilen, hb ((i - 1) / 2) (by omega) (by omega)]
        exact ha i hi0 (by simp only [List.length_dropLast] at hilen; omega)
      have hsd := sdbGo_heap (a.dropLast.set 0 (hget a (a.length - 1))).length
        (a.dropLast.set 0 (hget a (a.length - 1))) 0
        (by simpa using hdl) (by omega) hbA (by omega)
      rw [← h.2, siftDownToBottom_eq]
      refine siftUpGo_heap _ _ _ _ ?_ (le_refl _) hsd.1 ?_ ?_
      · rw [sdbGo_length]
        exact hsd.2.1
      · intro c hc0 hclen hcpar
        rw [sdbGo_length] at hclen
        exact absurd hcpar (fun hp => hsd.2.2 c hc0 hclen hp)
      · intro c hc0 hclen hcpar _
        rw [sdbGo_length] at hclen
        exact absurd hcpar (fun hp => hsd.2.2 c hc0 hclen hp)

theorem hpop_fst (a : List Node) (x : Node) (a' : List Node)
    (h : hpop a = some (x, a')) : x = hget a 0 := by
  unfold hpop at h
  split at h
  · exact absurd h (by simp)
  · rename_i hne
    rw [List.isEmpty_iff] at hne
    split at h
    · rename_i hrest
      rw [List.isEmpty_iff] at hrest
      simp only [Option.some.injEq, Prod.mk.injEq] at h
      have hl : a.length = 1 := by
        have h3 : a.dropLast.length = 0 := by simp [hrest]
        have h4 : a.length ≠ 0 := fun h0 => hne (List.length_eq_zero.mp h0)
        simp only [List.length_dropLast] at h3
        omega
      rw [← h.1, hl]
    · rename_i hrest
      rw [List.isEmpty_iff] at hrest
      simp only [Option.some.injEq, Prod.mk.injEq] at h
      have hdl : 0 < a.dropLast.length :=
        Nat.pos_of_ne_zero (fun h0 => hrest (List.length_eq_zero.mp h0))
      rw [← h.1, hget_dropLast a 0 (by simpa using hdl)]

theorem buildHeap_heap : ∀ (l acc : List Node), IsHeap acc →
    IsHeap (l.foldl hpush acc)
  | [], acc, hacc => hacc
  | x :: xs, acc, hacc =>
    buildHeap_heap xs (hpush acc x) (hpush_heap acc x hacc)

theorem isHeap_nil : IsHeap [] := by
  intro i _ hc
  simp only [List.length_nil] at hc
  omega

/-- C2: on a heap (as `construct_huffman_tree` maintains: its initial
`foldl hpush []` heap is one, and the pushed merge preserves it), each
iteration of the merge loop pops two nodes of minimal weight among the nodes
in the queue — the first minimal in the whole queue, the second minimal in
the remainder — pushes back an internal node whose weight is their sum, and
the loop returns the single remaining node once only one is left. -/
theorem c2_loop_pops_minima (h : List Node) (hh : IsHeap h)
    (hlen : 2 ≤ h.length) :
    ∃ a h₁ b h₂, hpop h = some (a, h₁) ∧ hpop h₁ = some (b, h₂) ∧
      (∀ x ∈ h, a.freq ≤ x.freq) ∧ List.Perm (a :: h₁) h ∧
      (∀ x ∈ h₁, b.freq ≤ x.freq) ∧ List.Perm (b :: h₂) h₁ ∧
      (mergeNodes a b).freq = a.freq + b.freq ∧
      IsHeap (hpush h₂ (mergeNodes a b)) ∧
      (∀ fuel, buildLoop (fuel + 1) h
        = buildLoop fuel (hpush h₂ (mergeNodes a b))) ∧
      (∀ fv : List Node, IsHeap (fv.foldl hpush [])) ∧
      (∀ x fuel, buildLoop fuel [x] = some x) := by
  have hne : h ≠ [] := by
    intro h0
    rw [h0] at hlen
    simp at hlen
  obtain ⟨a, h₁, hpa⟩ := hpop_ne_none h hne
  have hperm1 := hpop_perm h a h₁ hpa
  have hlen1 := hpop_length h a h₁ hpa
  have hne1 : h₁ ≠ [] := by
    intro h0
    subst h0
    simp only [List.length_nil] at hlen1
    omega
  have hheap1 := hpop_heap h a h₁ hh hpa
  obtain ⟨b, h₂, hpb⟩ := hpop_ne_none h₁ hne1
  have hperm2 := hpop_perm h₁ b h₂ hpb
  have hheap2 := hpop_heap h₁ b h₂ hheap1 hpb
  refine ⟨a, h₁, b, h₂, hpa, hpb, ?_, hperm1, ?_, hperm2, rfl,
    hpush_heap _ _ hheap2, ?_, ?_, ?_⟩
  · intro x hx
    rw [hpop_fst h a h₁ hpa]
    obtain ⟨i, hi, hix⟩ := List.getElem_of_mem hx
    have := root_min h hh i hi
    rwa [hget_eq hi, hix] at this
  · intro x hx
    rw [hpop_fst h₁ b h₂ hpb]
    obtain ⟨i, hi, hix⟩ := List.getElem_of_mem hx
    have := root_min h₁ hheap1 i hi
    rwa [hget_eq hi, hix] at this
  · intro fuel
    rw [buildLoop, if_neg (by omega)]
    simp only [hpa, hpb]
  · intro fv
    exact buildHeap_heap fv [] isHeap_nil
  · intro x fuel
    cases fuel with
    | zero => rfl
    | succ f =>
      rw [buildLoop, if_pos (by simp)]
      rfl

theorem c2_loop_pops_minima_witness :
    ∃ a h₁ b h₂,
      hpop [Node.new 97 1, Node.new 98 2] = some (a, h₁) ∧
      hpop h₁ = some (b, h₂) ∧
      (∀ x ∈ [Node.new 97 1, Node.new 98 2], a.freq ≤ x.freq) ∧
      List.Perm (a :: h₁) [Node.new 97 1, Node.new 98 2] ∧
      (∀ x ∈ h₁, b.freq ≤ x.freq) ∧ List.Perm (b :: h₂) h₁ ∧
      (mergeNodes a b).freq = a.freq + b.freq ∧
      IsHeap (hpush h₂ (mergeNodes a b)) ∧
      (∀ fuel, buildLoop (fuel + 1) [Node.new 97 1, Node.new 98 2]
        = buildLoop fuel (hpush h₂ (mergeNodes a b))) ∧
      (∀ fv : List Node, IsHeap (fv.foldl hpush [])) ∧
      (∀ x fuel, buildLoop fuel [x] = some x) :=
  c2_loop_pops_minima [Node.new 97 1, Node.new 98 2]
    (by
      intro i hi0 hilen
      simp only [List.length_cons, List.length_nil] at hilen
      have hi1 : i = 1 := by omega
      subst hi1
      decide)
    (by decide)

/-! ### tree serialization round trip -/

theorem utf8Bytes_append (s₁ s₂ : List Nat) :
    utf8Bytes (s₁ ++ s₂) = utf8Bytes s₁ ++ utf8Bytes s₂ := by
  induction s₁ with
  | nil => rfl
  | cons c cs ih =>
    simp only [utf8Bytes, List.foldr_cons, List.cons_append, List.foldr_append]
    simp only [utf8Bytes, List.foldr_append] at ih
    rw [ih]
    simp [List.append_assoc]

theorem ctfpGo_serialize :
    ∀ (t : Node), SerializableTree t → ∀ (rest : List Nat) (stack : List Node),
      ctfpGo (utf8Bytes (to_string t) ++ rest) stack
        = ctfpGo rest (stripFreq t :: stack)
  | .mk letter freq none none, ht, rest, stack => by
    obtain ⟨h1, h2⟩ := ht
    have hts : to_string (.mk letter freq none none) = [letter] := rfl
    have hu : utf8Bytes [letter] = [letter] := by
      simp only [utf8Bytes, List.foldr, utf8EncodeChar,
        if_pos (by omega : letter < 0x80), List.append_nil]
    rw [hts, hu]
    simp only [ctfpGo, if_neg (by omega : ¬letter = 0), List.cons_append]
    rfl
  | .mk letter freq (some l) (some r), ht, rest, stack => by
    obtain ⟨h1, hl, hr⟩ := ht
    subst h1
    have hts : to_string (.mk 0 freq (some l) (some r))
        = to_string l ++ to_string r ++ [0] := rfl
    rw [hts, utf8Bytes_append, utf8Bytes_append, List.append_assoc,
      List.append_assoc]
    rw [ctfpGo_serialize l hl, ctfpGo_serialize r hr]
    have hu0 : utf8Bytes [0] = [0] := rfl
    rw [hu0]
    simp only [List.cons_append, List.nil_append, ctfpGo, if_pos rfl]
    rfl
  | .mk _ _ none (some _), ht, _, _ => ht.elim
  | .mk _ _ (some _) none, ht, _, _ => ht.elim

/-- Deserializing a serializable tree's post-order bytes rebuilds the tree
(with frequencies zeroed). -/
theorem deserialize_serialize (t : Node) (ht : SerializableTree t) :
    construct_tree_from_postorder (utf8Bytes (to_string t))
      = some (stripFreq t) := by
  rw [construct_tree_from_postorder]
  have h := ctfpGo_serialize t ht [] []
  rw [List.append_nil] at h
  simp only [h, ctfpGo, List.head?]

/-- C6 (amended): for every full binary tree whose internal nodes carry the
merge-sentinel letter and whose leaves carry non-NUL ASCII symbols,
deserializing the serialized post-order bytes rebuilds the tree exactly —
same shape, same letters in the same positions (with frequencies zeroed, as
the deserializer stores `freq: 0`). -/
theorem c6_postorder_roundtrip (t : Node) (ht : SerializableTree t) :
    construct_tree_from_postorder (utf8Bytes (to_string t))
      = some (stripFreq t) :=
  deserialize_serialize t ht

theorem c6_postorder_roundtrip_witness :
    construct_tree_from_postorder
        (utf8Bytes (to_string
          (Node.mk 0 3 (some (Node.mk 97 1 none none))
            (some (Node.mk 98 2 none none)))))
      = some (stripFreq
          (Node.mk 0 3 (some (Node.mk 97 1 none none))
            (some (Node.mk 98 2 none none)))) :=
  c6_postorder_roundtrip _
    ⟨rfl, ⟨by omega, by omega⟩, ⟨by omega, by omega⟩⟩

/-! ### bit-packing lemmas -/

theorem two_mul_or_one (n : Nat) : 2 * n ||| 1 = 2 * n + 1 := by
  have h1 : 2 * n = Nat.bit false n := by simp [Nat.bit_val]
  have h2 : (1 : Nat) = Nat.bit true 0 := by simp [Nat.bit_val]
  rw [h1, h2, Nat.lor_bit]
  simp [Nat.bit_val]

theorem byteBitsGo_length : ∀ (k c : Nat), (byteBitsGo c k).length = k
  | 0, _ => rfl
  | k + 1, c => by
    rw [byteBitsGo]
    simp [byteBitsGo_length k]

theorem byteBits_length (c : Nat) : (byteBits c).length = 8 :=
  byteBitsGo_length 8 c

theorem flatMap_byteBits_length (l : List Nat) :
    (l.flatMap byteBits).length = 8 * l.length := by
  induction l with
  | nil => rfl
  | cons x xs ih =>
    simp only [List.flatMap_cons, List.length_append, byteBits_length, ih,
      List.length_cons]
    ring

theorem byteBitsGo_testBit :
    ∀ (k c : Nat), c < 256 → k ≤ 8 →
      byteBitsGo c k = (List.range k).map (fun i => c.testBit (7 - i))
  | 0, _, _, _ => rfl
  | k + 1, c, hc, hk => by
    have hc' : (c <<< 1) % 256 < 256 := Nat.mod_lt _ (by omega)
    rw [byteBitsGo, byteBitsGo_testBit k ((c <<< 1) % 256) hc' (by omega),
      List.range_succ_eq_map]
    simp only [List.map_cons, List.map_map]
    refine congrArg₂ List.cons ?_ ?_
    · simp [Nat.testBit, Nat.and_comm]
    · refine List.map_congr_left ?_
      intro i hi
      rw [List.mem_range] at hi
      simp only [Function.comp]
      have h7 : 7 - i < 8 := by omega
      have h256 : (256 : Nat) = 2 ^ 8 := by norm_num
      rw [h256, Nat.testBit_mod_two_pow]
      simp only [h7, decide_True, Bool.true_and]
      rw [Nat.testBit_shiftLeft]
      have h1 : (1 : Nat) ≤ 7 - i := by omega
      have h2 : 7 - i - 1 = 7 - (i + 1) := by omega
      simp [h1, h2]

theorem byteBits_eq_bufBits (c : Nat) (hc : c < 256) : byteBits c = bufBits c 8 := by
  rw [byteBits, byteBitsGo_testBit 8 c hc (le_refl _), bufBits]

theorem bufBits_append_bit (byte count : Nat) (b : Bool) :
    bufBits (2 * byte + (if b then 1 else 0)) (count + 1)
      = bufBits byte count ++ [b] := by
  rw [bufBits, bufBits, List.range_succ, List.map_append]
  refine congrArg₂ (· ++ ·) ?_ ?_
  · refine List.map_congr_left ?_
    intro i hi
    rw [List.mem_range] at hi
    have h1 : count + 1 - 1 - i = (count - 1 - i) + 1 := by omega
    rw [h1, Nat.testBit_succ]
    have h2 : (2 * byte + (if b then 1 else 0)) / 2 = byte := by
      cases b <;> simp <;> omega
    rw [h2]
  · simp only [List.map_cons, List.map_nil]
    have h0 : count + 1 - 1 - count = 0 := by omega
    rw [h0, Nat.testBit_zero]
    cases b <;> simp <;> omega

theorem bufBits_zero_len (byte : Nat) : bufBits byte 0 = [] := rfl

theorem packBit_sem (byte count : Nat) (stream : List Nat) (b : Bool)
    (hc : count < 8) (hb : byte < 2 ^ count) (hs : ∀ x ∈ stream, x < 256) :
    packedBitsOf (packBit (byte, count, stream) b)
        = packedBitsOf (byte, count, stream) ++ [b] ∧
    (packBit (byte, count, stream) b).2.1 = (count + 1) % 8 ∧
    (packBit (byte, count, stream) b).1
      < 2 ^ (packBit (byte, count, stream) b).2.1 ∧
    (∀ x ∈ (packBit (byte, count, stream) b).2.2, x < 256) := by
  have hcpow : 2 ^ count ≤ 128 := by
    calc 2 ^ count ≤ 2 ^ 7 := Nat.pow_le_pow_right (by omega) (by omega)
    _ = 128 := by norm_num
  have hbv : ((byte <<< 1) % 256) ||| (if b then 1 else 0)
      = 2 * byte + (if b then 1 else 0) := by
    rw [Nat.shiftLeft_eq, pow_one, Nat.mod_eq_of_lt (by omega), Nat.mul_comm]
    cases b
    · simp
    · simpa using two_mul_or_one byte
  have hbv2 : 2 * byte + (if b then 1 else 0) < 2 ^ (count + 1) := by
    have : 2 ^ (count + 1) = 2 * 2 ^ count := by ring
    rw [this]
    cases b <;> simp <;> omega
  by_cases hcnt : (count + 1) % 8 = 0
  · have hc7 : count = 7 := by omega
    subst hc7
    have hlt256 : 2 * byte + (if b then 1 else 0) < 256 := by
      cases b <;> simp <;> omega
    have hpack : packBit (byte, 7, stream) b
        = (0, 0, stream ++ [2 * byte + (if b then 1 else 0)]) := by
      simp only [packBit, hbv]
      rfl
    rw [hpack]
    refine ⟨?_, by simp, by simp, ?_⟩
    · simp only [packedBitsOf, List.flatMap_append, List.flatMap_cons,
        List.flatMap_nil, List.append_nil, bufBits_zero_len]
      rw [byteBits_eq_bufBits _ hlt256, bufBits_append_bit]
      simp [List.append_assoc]
    · intro x hx
      rcases List.mem_append.mp hx with h0 | h0
      · exact hs x h0
      · simp only [List.mem_singleton] at h0
        omega
  · have hpack : packBit (byte, count, stream) b
        = (2 * byte + (if b then 1 else 0), (count + 1) % 8, stream) := by
      simp only [packBit, hbv]
      rw [if_neg hcnt]
    rw [hpack]
    have hid : (count + 1) % 8 = count + 1 := by omega
    refine ⟨?_, rfl, by rw [hid]; exact hbv2, hs⟩
    simp only [packedBitsOf, hid]
    rw [bufBits_append_bit]
    simp [List.append_assoc]

theorem packList_sem :
    ∀ (bs : List Bool) (byte count : Nat) (stream : List Nat),
      count < 8 → byte < 2 ^ count → (∀ x ∈ stream, x < 256) →
      packedBitsOf (packList bs (byte, count, stream))
          = packedBitsOf (byte, count, stream) ++ bs ∧
      (packList bs (byte, count, stream)).2.1 = (count + bs.length) % 8 ∧
      (packList bs (byte, count, stream)).1
        < 2 ^ (packList bs (byte, count, stream)).2.1 ∧
      (∀ x ∈ (packList bs (byte, count, stream)).2.2, x < 256)
  | [], byte, count, stream, hc, hb, hs => by
    have hnil : packList [] (byte, count, stream) = (byte, count, stream) := rfl
    rw [hnil]
    exact ⟨by simp, by simp; omega, hb, hs⟩
  | b :: bs, byte, count, stream, hc, hb, hs => by
    obtain ⟨h1, h2, h3, h4⟩ := packBit_sem byte count stream b hc hb hs
    rcases hpb : packBit (byte, count, stream) b with ⟨b₁, c₁, s₁⟩
    rw [hpb] at h1 h2 h3 h4
    simp only at h2 h3
    have hc1 : c₁ < 8 := by omega
    have hstep : packList (b :: bs) (byte, count, stream)
        = packList bs (b₁, c₁, s₁) := by
      rw [packList, List.foldl_cons, hpb]
      rfl
    obtain ⟨g1, g2, g3, g4⟩ := packList_sem bs b₁ c₁ s₁ hc1 h3 h4
    rw [hstep]
    refine ⟨?_, ?_, g3, g4⟩
    · rw [g1, h1]
      simp [List.append_assoc]
    · rw [g2, h2]
      simp only [List.length_cons]
      omega

/-! ### `compress_data` in terms of the packer -/

theorem cdGo_packs (hm : List (Nat × List Nat)) :
    ∀ (text : List Nat) (st : Nat × Nat × List Nat),
      (∀ c ∈ text, mapGet hm c ≠ none) →
      cdGo hm text st = some (packList
        (text.flatMap fun c => strToBits ((mapGet hm c).getD [])) st)
  | [], st, _ => rfl
  | c :: cs, st, hall => by
    cases hg : mapGet hm c with
    | none => exact absurd hg (hall c (by simp))
    | some enc =>
      simp only [cdGo, hg]
      rw [cdGo_packs hm cs _ (fun x hx => hall x (List.mem_cons_of_mem c hx))]
      congr 1
      simp only [List.flatMap_cons, hg, Option.getD_some]
      rw [packList, packList, List.foldl_append]
      congr 1
      rw [strToBits, List.foldl_map]

theorem foldl_append_byteBits (l : List Nat) :
    ∀ acc : List Bool,
      l.foldl (fun acc b => acc ++ byteBits b) acc = acc ++ l.flatMap byteBits := by
  induction l with
  | nil => intro acc; simp
  | cons x xs ih =>
    intro acc
    simp only [List.foldl_cons, List.flatMap_cons, ih, List.append_assoc]

theorem bufBits_mul_pow (x p count : Nat) :
    bufBits (x * 2 ^ p) (count + p) = bufBits x count ++ List.replicate p false := by
  rw [bufBits, bufBits, List.range_add, List.map_append]
  refine congrArg₂ (· ++ ·) ?_ ?_
  · refine List.map_congr_left ?_
    intro i hi
    rw [List.mem_range] at hi
    rw [← Nat.shiftLeft_eq, Nat.testBit_shiftLeft]
    have h1 : p ≤ count + p - 1 - i := by omega
    have h2 : count + p - 1 - i - p = count - 1 - i := by omega
    simp [h1, h2]
  · rw [List.map_map]
    refine List.eq_replicate.mpr ⟨by simp, ?_⟩
    intro b hb
    rw [List.mem_map] at hb
    obtain ⟨j, hj, hjb⟩ := hb
    rw [List.mem_range] at hj
    rw [← hjb]
    simp only [Function.comp]
    rw [← Nat.shiftLeft_eq, Nat.testBit_shiftLeft]
    have h1 : ¬p ≤ count + p - 1 - (count + j) := by omega
    simp [h1]

theorem compress_data_sem (text : List Nat) (tree : Node)
    (hall : ∀ c ∈ text, mapGet (to_hashmap tree) c ≠ none) :
    ∃ stream,
      compress_data text tree
        = some (((8 - (codeBits tree text).length % 8) % 8) :: stream) ∧
      (∀ x ∈ stream, x < 256) ∧
      stream.flatMap byteBits
        = codeBits tree text
          ++ List.replicate ((8 - (codeBits tree text).length % 8) % 8) false ∧
      stream.length = ((codeBits tree text).length + 7) / 8 := by
  have hcd := cdGo_packs (to_hashmap tree) text (0, 0, []) hall
  rcases hq : packList
      (text.flatMap fun c => strToBits ((mapGet (to_hashmap tree) c).getD []))
      (0, 0, []) with ⟨byte, count, stream'⟩
  have hbits : (text.flatMap fun c =>
      strToBits ((mapGet (to_hashmap tree) c).getD [])) = codeBits tree text := rfl
  obtain ⟨g1, g2, g3, g4⟩ := packList_sem
    (text.flatMap fun c => strToBits ((mapGet (to_hashmap tree) c).getD []))
    0 0 [] (by omega) (by omega) (by simp)
  rw [hq] at hcd g1 g2 g3 g4
  simp only at g2 g3 g4
  have hpb0 : packedBitsOf (0, 0, []) = [] := rfl
  rw [hpb0, List.nil_append] at g1
  have hg1 : stream'.flatMap byteBits ++ bufBits byte count = codeBits tree text := by
    rw [← hbits]
    exact g1
  have hlen8 : (stream'.flatMap byteBits).length = 8 * stream'.length :=
    flatMap_byteBits_length stream'
  have hbuflen : (bufBits byte count).length = count := by simp [bufBits]
  have hlen : 8 * stream'.length + count = (codeBits tree text).length := by
    have := congrArg List.length hg1
    simpa [hlen8, hbuflen] using this
  have hcount : count = (codeBits tree text).length % 8 := by
    rw [g2, hbits]
    omega
  rw [compress_data]
  simp only [hcd]
  by_cases hc0 : count = 0
  · have hpad : (8 - (codeBits tree text).length % 8) % 8 = 0 := by omega
    refine ⟨stream', ?_, g4, ?_, ?_⟩
    · rw [if_neg (by simp [hc0]), hpad]
    · rw [hpad]
      simp only [List.replicate_zero, List.append_nil]
      rw [← hg1, hc0, bufBits_zero_len, List.append_nil]
    · omega
  · have hcb : count < 8 := by omega
    have hfin : (byte <<< (8 - count)) % 256 = byte * 2 ^ (8 - count) := by
      rw [Nat.shiftLeft_eq]
      refine Nat.mod_eq_of_lt ?_
      calc byte * 2 ^ (8 - count) < 2 ^ count * 2 ^ (8 - count) := by
            have h2p : 0 < 2 ^ (8 - count) := Nat.pos_pow_of_pos _ (by omega)
            exact (Nat.mul_lt_mul_right h2p).mpr g3
      _ = 2 ^ 8 := by
            rw [← pow_add]
            congr 1
            omega
    have hpad : (8 - (codeBits tree text).length % 8) % 8 = 8 - count := by omega
    refine ⟨stream' ++ [(byte <<< (8 - count)) % 256], ?_, ?_, ?_, ?_⟩
    · rw [if_pos (by simp [hc0]), hpad]
    · intro x hx
      rcases List.mem_append.mp hx with h0 | h0
      · exact g4 x h0
      · simp only [List.mem_singleton] at h0
        subst h0
        exact Nat.mod_lt _ (by omega)
    · rw [List.flatMap_append]
      simp only [List.flatMap_cons, List.flatMap_nil, List.append_nil]
      rw [hfin, byteBits_eq_bufBits _ (by rw [← hfin]; exact Nat.mod_lt _ (by omega))]
      have hb8 : bufBits (byte * 2 ^ (8 - count)) 8
          = bufBits byte count ++ List.replicate (8 - count) false := by
        have hshift := bufBits_mul_pow byte (8 - count) count
        rw [show count + (8 - count) = 8 by omega] at hshift
        exact hshift
      rw [hb8, ← List.append_assoc, hg1, hpad]
    · simp only [List.length_append, List.length_cons, List.length_nil]
      omega

/-! ### the balanced two-symbol input -/

theorem abPattern_succ (n : Nat) :
    abPattern (n + 1) = 97 :: 98 :: abPattern n := by
  rw [abPattern, List.replicate_succ, List.flatten_cons]
  rfl

theorem abPattern_perm (n : Nat) :
    List.Perm (abPattern n) (List.replicate n 97 ++ List.replicate n 98) := by
  induction n with
  | zero => simp [abPattern]
  | succ m ih =>
    rw [abPattern_succ, List.replicate_succ, List.replicate_succ]
    refine ((ih.cons 98).cons 97).trans ?_
    refine List.Perm.cons 97 ?_
    exact List.perm_middle.symm

theorem sorted_replicate (n c : Nat) :
    List.Sorted (· ≤ ·) (List.replicate n c) := by
  induction n with
  | zero => exact List.sorted_nil
  | succ m ih =>
    rw [List.replicate_succ]
    refine List.sorted_cons.mpr ⟨?_, ih⟩
    intro b hb
    rw [List.eq_of_mem_replicate hb]

theorem sortChars_abPattern (n : Nat) :
    sortChars (abPattern n) = List.replicate n 97 ++ List.replicate n 98 := by
  have hperm : List.Perm (sortChars (abPattern n))
      (List.replicate n 97 ++ List.replicate n 98) :=
    (List.perm_insertionSort _ _).trans (abPattern_perm n)
  have hs1 : List.Sorted (· ≤ ·) (sortChars (abPattern n)) :=
    List.sorted_insertionSort _ _
  have hs2 : List.Sorted (· ≤ ·)
      (List.replicate n 97 ++ List.replicate n (98 : Nat)) := by
    refine List.pairwise_append.mpr
      ⟨sorted_replicate n 97, sorted_replicate n 98, ?_⟩
    intro a ha b hb
    rw [List.eq_of_mem_replicate ha, List.eq_of_mem_replicate hb]
    omega
  exact List.eq_of_perm_of_sorted hperm hs1 hs2

theorem fcGo_replicate :
    ∀ (k : Nat) (c f : Nat) (acc : List Node) (rest : List Nat),
      fcGo (List.replicate k c ++ rest) c f acc = fcGo rest c (f + k) acc
  | 0, c, f, acc, rest => rfl
  | k + 1, c, f, acc, rest => by
    rw [List.replicate_succ, List.cons_append, fcGo]
    rw [if_pos rfl, fcGo_replicate k c (f + 1) acc rest]
    congr 1
    omega

theorem freq_count_abPattern (n : Nat) (hn : 0 < n) :
    freq_count (abPattern n) = some [Node.new 97 n, Node.new 98 n] := by
  obtain ⟨m, rfl⟩ : ∃ m, n = m + 1 := ⟨n - 1, by omega⟩
  rw [freq_count, sortChars_abPattern]
  have hshape : List.replicate (m + 1) 97 ++ List.replicate (m + 1) (98 : Nat)
      = 97 :: (List.replicate m 97 ++ List.replicate (m + 1) 98) := by
    rw [List.replicate_succ]
    rfl
  rw [hshape]
  show some (fcGo (97 :: (List.replicate m 97 ++ List.replicate (m + 1) 98)) 97 0 [])
    = some [Node.new 97 (m + 1), Node.new 98 (m + 1)]
  have h1 : fcGo (97 :: (List.replicate m 97 ++ List.replicate (m + 1) 98)) 97 0 []
      = fcGo (List.replicate (m + 1) 98) 97 (0 + (m + 1)) [] := by
    have h2 := fcGo_replicate (m + 1) 97 0 [] (List.replicate (m + 1) 98)
    rw [List.replicate_succ, List.cons_append] at h2
    exact h2
  rw [h1, List.replicate_succ, fcGo, if_neg (by omega)]
  simp only [List.nil_append, Nat.zero_add]
  have h2 := fcGo_replicate m 98 1 [Node.new 97 (m + 1)] []
  rw [List.append_nil] at h2
  rw [h2, fcGo]
  have h3 : 1 + m = m + 1 := by omega
  rw [h3]
  rfl

theorem tree_two_equal (n : Nat) :
    construct_huffman_tree [Node.new 97 n, Node.new 98 n]
      = some (Node.mk 0 (n + n) (some (Node.new 97 n)) (some (Node.new 98 n))) := by
  have hp1 : hpush [] (Node.new 97 n) = [Node.new 97 n] := rfl
  have hp2 : hpush [Node.new 97 n] (Node.new 98 n)
      = [Node.new 97 n, Node.new 98 n] := by
    have hle : nodeLe (Node.new 98 n)
        (hget ([Node.new 97 n] ++ [Node.new 98 n]) (([Node.new 97 n] :
          List Node).length - 1 / 2)) = true := by
      simp [nodeLe, hget, Node.new, Node.freq]
    rw [hpush]
    simp only [siftUpGo]
    rw [if_pos (by simp)]
    rw [if_pos (by simp [nodeLe, hget, Node.new, Node.freq])]
    rfl
  have hheap : [Node.new 97 n, Node.new 98 n].foldl hpush []
      = [Node.new 97 n, Node.new 98 n] := by
    simp only [List.foldl_cons, List.foldl_nil, hp1, hp2]
  rw [construct_huffman_tree, hheap]
  rfl


theorem to_hashmap_two (n : Nat) :
    to_hashmap (Node.mk 0 (n + n) (some (Node.new 97 n)) (some (Node.new 98 n)))
      = [(97, [48]), (98, [49])] := rfl

theorem flatMap_fixed_len :
    ∀ n : Nat, ((abPattern n).flatMap
      (fun c => strToBits ((mapGet [(97, [48]), (98, [49])] c).getD []))).length
      = 2 * n
  | 0 => rfl
  | n + 1 => by
    rw [abPattern_succ, List.flatMap_cons, List.flatMap_cons]
    simp only [List.length_append, flatMap_fixed_len n]
    have h1 : (strToBits ((mapGet [(97, [48]), (98, [49])] 97).getD [])).length
        = 1 := rfl
    have h2 : (strToBits ((mapGet [(97, [48]), (98, [49])] 98).getD [])).length
        = 1 := rfl
    rw [h1, h2]
    omega

theorem codeBits_abPattern_len (n : Nat) :
    (codeBits (Node.mk 0 (n + n) (some (Node.new 97 n)) (some (Node.new 98 n)))
      (abPattern n)).length = 2 * n := by
  rw [codeBits, to_hashmap_two]
  exact flatMap_fixed_len n

theorem mem_abPattern : ∀ (n c : Nat), c ∈ abPattern n → c = 97 ∨ c = 98
  | 0, c, h => by simp [abPattern] at h
  | n + 1, c, h => by
    rw [abPattern_succ] at h
    rcases List.mem_cons.mp h with h0 | h0
    · exact Or.inl h0
    · rcases List.mem_cons.mp h0 with h1 | h1
      · exact Or.inr h1
      · exact mem_abPattern n c h1

/-- C7: on the input "abab...ab" of length `2 * n`, the code map assigns both
symbols one-bit codes ("0" for 'a', "1" for 'b'), the packed data occupies
`ceil(2n / 8)` bytes, and the padding byte is `(8 - 2n % 8) % 8`; `compress`
emits exactly the serialized tree followed by that padding byte and packed
data. -/
theorem c7_balanced_two_symbol (n : Nat) (hn : 0 < n) :
    ∃ stream,
      freq_count (abPattern n) = some [Node.new 97 n, Node.new 98 n] ∧
      construct_huffman_tree [Node.new 97 n, Node.new 98 n]
        = some (Node.mk 0 (n + n) (some (Node.new 97 n))
            (some (Node.new 98 n))) ∧
      mapGet (to_hashmap (Node.mk 0 (n + n) (some (Node.new 97 n))
          (some (Node.new 98 n)))) 97 = some [48] ∧
      mapGet (to_hashmap (Node.mk 0 (n + n) (some (Node.new 97 n))
          (some (Node.new 98 n)))) 98 = some [49] ∧
      compress_data (abPattern n)
          (Node.mk 0 (n + n) (some (Node.new 97 n)) (some (Node.new 98 n)))
        = some (((8 - (2 * n) % 8) % 8) :: stream) ∧
      stream.length = (2 * n + 7) / 8 ∧
      compress (abPattern n)
        = some (embed_tree (Node.mk 0 (n + n) (some (Node.new 97 n))
            (some (Node.new 98 n))) ++ ((8 - (2 * n) % 8) % 8) :: stream) := by
  have hall : ∀ c ∈ abPattern n,
      mapGet (to_hashmap (Node.mk 0 (n + n) (some (Node.new 97 n))
        (some (Node.new 98 n)))) c ≠ none := by
    intro c hc
    rcases mem_abPattern n c hc with rfl | rfl
    · rw [to_hashmap_two]
      simp [mapGet]
    · rw [to_hashmap_two]
      simp [mapGet, List.find?]
  obtain ⟨stream, hcd, hs256, hsb, hslen⟩ := compress_data_sem (abPattern n) _ hall
  rw [codeBits_abPattern_len] at hcd hslen
  refine ⟨stream, freq_count_abPattern n hn, tree_two_equal n, rfl, rfl, hcd,
    hslen, ?_⟩
  rw [compress]
  simp only [freq_count_abPattern n hn, tree_two_equal n, hcd]

theorem c7_balanced_two_symbol_witness :
    ∃ stream,
      freq_count (abPattern 2) = some [Node.new 97 2, Node.new 98 2] ∧
      construct_huffman_tree [Node.new 97 2, Node.new 98 2]
        = some (Node.mk 0 (2 + 2) (some (Node.new 97 2))
            (some (Node.new 98 2))) ∧
      mapGet (to_hashmap (Node.mk 0 (2 + 2) (some (Node.new 97 2))
          (some (Node.new 98 2)))) 97 = some [48] ∧
      mapGet (to_hashmap (Node.mk 0 (2 + 2) (some (Node.new 97 2))
          (some (Node.new 98 2)))) 98 = some [49] ∧
      compress_data (abPattern 2)
          (Node.mk 0 (2 + 2) (some (Node.new 97 2)) (some (Node.new 98 2)))
        = some (((8 - (2 * 2) % 8) % 8) :: stream) ∧
      stream.length = (2 * 2 + 7) / 8 ∧
      compress (abPattern 2)
        = some (embed_tree (Node.mk 0 (2 + 2) (some (Node.new 97 2))
            (some (Node.new 98 2))) ++ ((8 - (2 * 2) % 8) % 8) :: stream) :=
  c7_balanced_two_symbol 2 (by omega)

/-! ### the code map: entries, lookup, leaf paths -/

theorem encodeGo_eq_fold :
    ∀ (n : Node) (enc : List Nat) (hm : List (Nat × List Nat)),
      encodeGo n enc hm
        = (codeEntries n enc).foldl (fun m e => mapInsert m e.1 e.2) hm
  | .mk letter freq none right, enc, hm => rfl
  | .mk letter freq (some l) none, enc, hm => by
    rw [encodeGo, codeEntries]
    rw [encodeGo_eq_fold l (enc ++ [48]) hm]
    simp [List.foldl_append]
  | .mk letter freq (some l) (some r), enc, hm => by
    rw [encodeGo, codeEntries]
    rw [encodeGo_eq_fold l (enc ++ [48]) hm, encodeGo_eq_fold r (enc ++ [49])]
    simp [List.foldl_append]

theorem mapGet_insert (hm : List (Nat × List Nat)) (k c : Nat) (v : List Nat) :
    mapGet (mapInsert hm k v) c = if k = c then some v else mapGet hm c := by
  induction hm with
  | nil =>
    rw [mapInsert, mapGet, List.find?]
    by_cases hkc : k = c
    · simp [hkc, mapGet]
    · simp [hkc, mapGet, List.find?]
  | cons e rest ih =>
    rcases e with ⟨k', v'⟩
    rw [mapInsert]
    by_cases hk : k' = k
    · subst hk
      rw [if_pos rfl]
      by_cases hkc : k' = c
      · subst hkc
        simp [mapGet, List.find?]
      · simp [mapGet, List.find?, hkc]
    · rw [if_neg hk]
      by_cases hkc : k' = c
      · subst hkc
        have hkne : ¬k = k' := fun h => hk h.symm
        simp [mapGet, List.find?, hkne]
      · have h1 : mapGet ((k', v') :: mapInsert rest k v) c
            = mapGet (mapInsert rest k v) c := by
          simp [mapGet, List.find?, hkc]
        have h2 : mapGet ((k', v') :: rest) c = mapGet rest c := by
          simp [mapGet, List.find?, hkc]
        rw [h1, ih, h2]

theorem mapGet_foldl_insert (entries : List (Nat × List Nat)) :
    ∀ (hm : List (Nat × List Nat)) (c : Nat),
      mapGet (entries.foldl (fun m e => mapInsert m e.1 e.2) hm) c
        = match entries.reverse.find? (fun e => e.1 = c) with
          | some e => some e.2
          | none => mapGet hm c := by
  induction entries with
  | nil => intro hm c; rfl
  | cons e rest ih =>
    intro hm c
    rw [List.foldl_cons, ih]
    rw [List.reverse_cons, List.find?_append]
    cases hfind : rest.reverse.find? (fun e => e.1 = c) with
    | some e' => simp [Option.orElse]
    | none =>
      rw [mapGet_insert]
      by_cases hec : e.1 = c
      · simp [List.find?, hec, Option.orElse]
      · simp [List.find?, hec, Option.orElse]

theorem codeEntries_ne_nil : ∀ (t : Node) (pre : List Nat),
    codeEntries t pre ≠ []
  | .mk letter freq none right, pre => by simp [codeEntries]
  | .mk letter freq (some l) none, pre => by
    rw [codeEntries]
    simpa using codeEntries_ne_nil l (pre ++ [48])
  | .mk letter freq (some l) (some r), pre => by
    rw [codeEntries]
    simp only [ne_eq, List.append_eq_nil]
    intro h
    exact codeEntries_ne_nil l (pre ++ [48]) h.1

theorem codeEntries_mem :
    ∀ (t : Node), WFTree t → ∀ (pre : List Nat) (e : Nat × List Nat),
      e ∈ codeEntries t pre →
      ∃ p ℓ, follow t p = some ℓ ∧ ℓ.left = none ∧ e.1 = ℓ.letter ∧
        e.2 = pre ++ pathStr p
  | .mk letter freq none none, _, pre, e, he => by
    simp only [codeEntries, List.mem_singleton] at he
    subst he
    exact ⟨[], .mk letter freq none none, rfl, rfl, rfl, by simp [pathStr]⟩
  | .mk letter freq (some l) (some r), hwf, pre, e, he => by
    obtain ⟨-, -, hwl, hwr⟩ := hwf
    rw [codeEntries] at he
    rcases List.mem_append.mp he with h0 | h0
    · obtain ⟨p, ℓ, hf, hl, he1, he2⟩ := codeEntries_mem l hwl (pre ++ [48]) e h0
      refine ⟨false :: p, ℓ, ?_, hl, he1, ?_⟩
      · rw [follow]
        exact hf
      · rw [he2]
        simp [pathStr, List.append_assoc]
    · obtain ⟨p, ℓ, hf, hl, he1, he2⟩ := codeEntries_mem r hwr (pre ++ [49]) e h0
      refine ⟨true :: p, ℓ, ?_, hl, he1, ?_⟩
      · rw [follow]
        exact hf
      · rw [he2]
        simp [pathStr, List.append_assoc]
  | .mk letter freq none (some r), hwf, pre, e, he => hwf.elim
  | .mk letter freq (some l) none, hwf, pre, e, he => hwf.elim

theorem codeEntries_cover :
    ∀ (t : Node), WFTree t → ∀ (pre : List Nat) (c : Nat),
      c ∈ leafLetters t → ∃ e ∈ codeEntries t pre, e.1 = c
  | .mk letter freq none none, _, pre, c, hc => by
    simp only [leafLetters, leavesOf, List.map_cons, List.map_nil,
      List.mem_singleton] at hc
    exact ⟨(letter, pre), by simp [codeEntries], by rw [hc]; rfl⟩
  | .mk letter freq (some l) (some r), hwf, pre, c, hc => by
    obtain ⟨-, -, hwl, hwr⟩ := hwf
    rw [leafLetters, leavesOf, List.map_append] at hc
    rcases List.mem_append.mp hc with h0 | h0
    · obtain ⟨e, he, hec⟩ := codeEntries_cover l hwl (pre ++ [48]) c h0
      exact ⟨e, by rw [codeEntries]; exact List.mem_append_left _ he, hec⟩
    · obtain ⟨e, he, hec⟩ := codeEntries_cover r hwr (pre ++ [49]) c h0
      exact ⟨e, by rw [codeEntries]; exact List.mem_append_right _ he, hec⟩
  | .mk letter freq none (some r), hwf, _, _, _ => hwf.elim
  | .mk letter freq (some l) none, hwf, _, _, _ => hwf.elim

theorem follow_leaf_stop :
    ∀ (p₁ : List Bool) (t : Node) (p₂ : List Bool) (ℓ₁ ℓ₂ : Node),
      follow t p₁ = some ℓ₁ → ℓ₁.left = none → follow t p₂ = some ℓ₂ →
      (∃ s, p₁ ++ s = p₂) → p₁ = p₂
  | [], t, p₂, ℓ₁, ℓ₂, h1, hl, h2, ⟨s, hs⟩ => by
    rw [follow] at h1
    injection h1 with h1
    subst h1
    simp only [List.nil_append] at hs
    subst hs
    cases s with
    | nil => rfl
    | cons b bs =>
      rw [follow, hl] at h2
      cases h2
  | b :: p₁, t, p₂, ℓ₁, ℓ₂, h1, hl, h2, ⟨s, hs⟩ => by
    subst hs
    rw [List.cons_append] at h2
    rw [follow] at h1 h2
    cases hL : t.left with
    | none =>
      rw [hL] at h1
      simp at h1
    | some l =>
      cases hR : t.right with
      | none =>
        rw [hL, hR] at h1
        simp at h1
      | some r =>
        rw [hL, hR] at h1 h2
        simp only at h1 h2
        have hrec := follow_leaf_stop p₁ (if b then r else l) (p₁ ++ s) ℓ₁ ℓ₂
          h1 hl h2 ⟨s, rfl⟩
        have hs0 : s = [] := by
          have hlen := congrArg List.length hrec
          simp only [List.length_append] at hlen
          exact List.length_eq_zero.mp (by omega)
        subst hs0
        simp

/-! ### `freq_count`: coverage and leaf shape -/

theorem fcGo_acc_mem :
    ∀ (l : List Nat) (prev f : Nat) (acc : List Node) (x : Node),
      x ∈ acc → x ∈ fcGo l prev f acc
  | [], prev, f, acc, x, hx => List.mem_append_left _ hx
  | c :: cs, prev, f, acc, x, hx => by
    rw [fcGo]
    by_cases hc : c = prev
    · rw [if_pos hc]
      exact fcGo_acc_mem cs prev (f + 1) acc x hx
    · rw [if_neg hc]
      exact fcGo_acc_mem cs c 1 _ x (List.mem_append_left _ hx)

theorem fcGo_prev_mem :
    ∀ (l : List Nat) (prev f : Nat) (acc : List Node),
      ∃ x ∈ fcGo l prev f acc, x.letter = prev
  | [], prev, f, acc =>
    ⟨Node.new prev f, List.mem_append_right _ (List.mem_singleton.mpr rfl), rfl⟩
  | c :: cs, prev, f, acc => by
    rw [fcGo]
    by_cases hc : c = prev
    · rw [if_pos hc]
      exact fcGo_prev_mem cs prev (f + 1) acc
    · rw [if_neg hc]
      exact ⟨Node.new prev f,
        fcGo_acc_mem cs c 1 _ _
          (List.mem_append_right _ (List.mem_singleton.mpr rfl)), rfl⟩

theorem fcGo_cover :
    ∀ (l : List Nat) (prev f : Nat) (acc : List Node) (c : Nat),
      c ∈ l → ∃ x ∈ fcGo l prev f acc, x.letter = c
  | c' :: cs, prev, f, acc, c, hc => by
    rw [fcGo]
    rcases List.mem_cons.mp hc with h0 | h0
    · subst h0
      by_cases hp : c = prev
      · rw [if_pos hp, ← hp]
        have := fcGo_prev_mem cs prev (f + 1) acc
        rw [← hp] at this
        exact this
      · rw [if_neg hp]
        exact fcGo_prev_mem cs c 1 _
    · by_cases hp : c' = prev
      · rw [if_pos hp]
        exact fcGo_cover cs prev (f + 1) acc c h0
      · rw [if_neg hp]
        exact fcGo_cover cs c' 1 _ c h0

theorem fcGo_leaf :
    ∀ (l : List Nat) (prev f : Nat) (acc : List Node),
      (∀ x ∈ acc, x.left = none ∧ x.right = none) →
      ∀ x ∈ fcGo l prev f acc, x.left = none ∧ x.right = none
  | [], prev, f, acc, hacc, x, hx => by
    rw [fcGo] at hx
    rcases List.mem_append.mp hx with h0 | h0
    · exact hacc x h0
    · rw [List.mem_singleton] at h0
      subst h0
      exact ⟨rfl, rfl⟩
  | c :: cs, prev, f, acc, hacc, x, hx => by
    rw [fcGo] at hx
    by_cases hc : c = prev
    · rw [if_pos hc] at hx
      exact fcGo_leaf cs prev (f + 1) acc hacc x hx
    · rw [if_neg hc] at hx
      refine fcGo_leaf cs c 1 _ ?_ x hx
      intro y hy
      rcases List.mem_append.mp hy with h0 | h0
      · exact hacc y h0
      · rw [List.mem_singleton] at h0
        subst h0
        exact ⟨rfl, rfl⟩

/-- `freq_count` on a non-empty text succeeds, and returns a non-empty list
of leaf nodes covering every character of the text. -/
theorem freq_count_spec (text : List Nat) (hne : text ≠ []) :
    ∃ fv, freq_count text = some fv ∧ fv ≠ [] ∧
      (∀ x ∈ fv, x.left = none ∧ x.right = none) ∧
      (∀ c ∈ text, ∃ x ∈ fv, x.letter = c) := by
  have hperm : List.Perm (sortChars text) text := List.perm_insertionSort _ text
  cases hs : sortChars text with
  | nil =>
    rw [hs] at hperm
    exact absurd (List.Perm.nil_eq hperm).symm hne
  | cons p rest =>
    rw [hs] at hperm
    refine ⟨fcGo (p :: rest) p 0 [], ?_, ?_, ?_, ?_⟩
    · simp only [freq_count, hs]
    · obtain ⟨x, hx, -⟩ := fcGo_prev_mem (p :: rest) p 0 []
      exact List.ne_nil_of_mem hx
    · exact fcGo_leaf (p :: rest) p 0 [] (by simp)
    · intro c hc
      exact fcGo_cover (p :: rest) p 0 [] c (hperm.mem_iff.mpr hc)

/-! ### the tree's leaves are the frequency nodes -/

theorem leavesOf_leaf_list :
    ∀ (fv : List Node), (∀ x ∈ fv, x.left = none ∧ x.right = none) →
      fv.flatMap leavesOf = fv
  | [], _ => rfl
  | x :: rest, h => by
    have hx := h x (List.mem_cons_self x rest)
    have hrest := leavesOf_leaf_list rest (fun y hy => h y (List.mem_cons_of_mem x hy))
    cases x with
    | mk letter freq left right =>
      simp only [Node.left, Node.right] at hx
      obtain ⟨hl, hr⟩ := hx
      subst hl
      subst hr
      rw [List.flatMap_cons, hrest]
      rfl

/-- `construct_huffman_tree` on a non-empty list of leaf nodes succeeds and
returns a well-formed tree whose leaves are a permutation of the input. -/
theorem tree_spec (fv : List Node) (hne : fv ≠ [])
    (hl : ∀ x ∈ fv, x.left = none ∧ x.right = none) :
    ∃ t, construct_huffman_tree fv = some t ∧ WFTree t ∧
      List.Perm (leavesOf t) fv := by
  obtain ⟨t, hct, hwf⟩ := tree_wf_of_leaf_list fv hne hl
  have hperm := foldl_hpush_perm fv []
  simp only [List.nil_append] at hperm
  have hne' : fv.foldl hpush [] ≠ [] := by
    intro h0
    rw [h0] at hperm
    exact hne (List.Perm.nil_eq hperm).symm
  obtain ⟨t', hbl, hLt⟩ := buildLoop_leaves (fv.foldl hpush []).length
    (fv.foldl hpush []) hne' (by omega)
  have hbl' : construct_huffman_tree fv = some t' := hbl
  rw [hct] at hbl'
  injection hbl' with heq
  subst heq
  refine ⟨t, hct, hwf, hLt.trans ?_⟩
  have p1 : List.Perm ((fv.foldl hpush []).flatMap leavesOf)
      (fv.flatMap leavesOf) := hperm.flatMap_right leavesOf
  rw [leavesOf_leaf_list fv hl] at p1
  exact p1

/-! ### the code map assigns every leaf letter a leaf path -/

/-- On a tree with an internal root, `to_hashmap` maps every leaf letter to
the code string of some non-empty root-to-leaf path ending at a leaf with
that letter. -/
theorem to_hashmap_code (t : Node) (hwf : WFTree t) (hroot : t.left ≠ none)
    (c : Nat) (hc : c ∈ leafLetters t) :
    ∃ p ℓ, mapGet (to_hashmap t) c = some (pathStr p) ∧ follow t p = some ℓ ∧
      ℓ.left = none ∧ ℓ.letter = c ∧ p ≠ [] := by
  have hn : t.left.isNone = false := by
    cases hL : t.left with
    | none => exact absurd hL hroot
    | some l => rfl
  rw [to_hashmap, if_neg (by simp [hn])]
  rw [encodeGo_eq_fold t [] [], mapGet_foldl_insert]
  obtain ⟨e₀, he₀, he₀c⟩ := codeEntries_cover t hwf [] c hc
  have hex : (codeEntries t []).reverse.find? (fun e => e.1 = c) ≠ none := by
    intro h0
    have := List.find?_eq_none.mp h0 e₀ (List.mem_reverse.mpr he₀)
    simp [he₀c] at this
  cases hfind : (codeEntries t []).reverse.find? (fun e => e.1 = c) with
  | none => exact absurd hfind hex
  | some e' =>
    have he'mem : e' ∈ codeEntries t [] :=
      List.mem_reverse.mp (List.mem_of_find?_eq_some hfind)
    have he'c : e'.1 = c := by
      have := List.find?_some hfind
      simpa using this
    obtain ⟨p, ℓ, hf, hl, h1, h2⟩ := codeEntries_mem t hwf [] e' he'mem
    refine ⟨p, ℓ, ?_, hf, hl, ?_, ?_⟩
    · show some e'.2 = some (pathStr p)
      rw [h2]
      simp
    · rw [← h1]
      exact he'c
    · intro hp0
      subst hp0
      rw [follow] at hf
      injection hf with hf
      subst hf
      exact hroot hl

/-- `pathStr` is injective: '0' and '1' are distinct bytes. -/
theorem pathStr_inj (p q : List Bool) (h : pathStr p = pathStr q) : p = q := by
  have hinj : Function.Injective (fun b : Bool => if b then (49 : Nat) else 48) := by
    intro x y hxy
    cases x <;> cases y <;> simp_all
  exact List.map_injective_iff.mpr hinj h

/-- C10: for every input with at least two distinct symbols, the code table
`to_hashmap` builds over the tree returned by `construct_huffman_tree` on the
input's frequency vector assigns every input symbol a non-empty code string,
assigns distinct symbols distinct code strings, and no assigned code string
is a prefix (proper or not) of a distinct symbol's code string: the table is
a prefix code. -/
theorem c10_prefix_code (text : List Nat) (hne : text ≠ [])
    (c₁ c₂ : Nat) (hm₁ : c₁ ∈ text) (hm₂ : c₂ ∈ text) (hcc : c₁ ≠ c₂) :
    ∃ fv tree, freq_count text = some fv ∧
      construct_huffman_tree fv = some tree ∧
      (∀ c ∈ text, ∃ s, mapGet (to_hashmap tree) c = some s ∧ s ≠ []) ∧
      (∀ a b s₁ s₂, a ∈ text → b ∈ text → a ≠ b →
        mapGet (to_hashmap tree) a = some s₁ →
        mapGet (to_hashmap tree) b = some s₂ →
        s₁ ≠ s₂ ∧ ¬∃ suf, s₁ ++ suf = s₂) := by
  obtain ⟨fv, hfc, hfvne, hfvleaf, hcover⟩ := freq_count_spec text hne
  obtain ⟨tree, hct, hwf, hleaves⟩ := tree_spec fv hfvne hfvleaf
  have hlet : ∀ c ∈ text, c ∈ leafLetters tree := by
    intro c hc
    obtain ⟨x, hx, hxc⟩ := hcover c hc
    have hxm : x ∈ leavesOf tree := hleaves.mem_iff.mpr hx
    rw [← hxc]
    exact List.mem_map_of_mem Node.letter hxm
  have hroot : tree.left ≠ none := by
    intro h0
    have h1 := hlet c₁ hm₁
    have h2 := hlet c₂ hm₂
    cases tree with
    | mk l f left right =>
      simp only [Node.left] at h0
      subst h0
      simp only [leafLetters, leavesOf, List.map_cons, List.map_nil,
        Node.letter, List.mem_singleton] at h1 h2
      exact hcc (h1.trans h2.symm)
  refine ⟨fv, tree, hfc, hct, ?_, ?_⟩
  · intro c hc
    obtain ⟨p, ℓ, hmg, hf, hl, hletter, hp⟩ :=
      to_hashmap_code tree hwf hroot c (hlet c hc)
    refine ⟨pathStr p, hmg, ?_⟩
    intro h0
    rw [pathStr] at h0
    exact hp (List.map_eq_nil.mp h0)
  · intro a b s₁ s₂ ha hb hab hg₁ hg₂
    obtain ⟨p₁, ℓ₁, hmg₁, hf₁, hl₁, hle₁, hp₁⟩ :=
      to_hashmap_code tree hwf hroot a (hlet a ha)
    obtain ⟨p₂, ℓ₂, hmg₂, hf₂, hl₂, hle₂, hp₂⟩ :=
      to_hashmap_code tree hwf hroot b (hlet b hb)
    rw [hg₁] at hmg₁
    rw [hg₂] at hmg₂
    injection hmg₁ with hs₁
    injection hmg₂ with hs₂
    subst hs₁
    subst hs₂
    have key : ∀ suf, pathStr p₁ ++ suf ≠ pathStr p₂ := by
      intro suf hsuf
      have hlen : p₁.length ≤ p₂.length := by
        have hc := congrArg List.length hsuf
        simp only [List.length_append, pathStr, List.length_map] at hc
        omega
      have htk : (pathStr p₂).take p₁.length = pathStr p₁ := by
        rw [← hsuf]
        have hlp : (pathStr p₁).length = p₁.length := by
          simp [pathStr]
        rw [← hlp, List.take_left]
      have htk2 : pathStr (p₂.take p₁.length) = pathStr p₁ := by
        rw [pathStr, List.map_take]
        exact htk
      have hq : p₂.take p₁.length = p₁ := pathStr_inj _ _ htk2
      have hsplit : p₁ ++ p₂.drop p₁.length = p₂ := by
        nth_rewrite 1 [← hq]
        exact List.take_append_drop p₁.length p₂
      have heq : p₁ = p₂ := follow_leaf_stop p₁ tree p₂ ℓ₁ ℓ₂ hf₁ hl₁ hf₂
        ⟨p₂.drop p₁.length, hsplit⟩
      rw [heq] at hf₁
      rw [hf₂] at hf₁
      injection hf₁ with hll
      rw [← hll] at hle₁
      exact hab (hle₁.symm.trans hle₂)
    constructor
    · intro h0
      exact key [] (by rw [List.append_nil]; exact h0)
    · rintro ⟨suf, hsuf⟩
      exact key suf hsuf

theorem c10_prefix_code_witness :
    ∃ fv tree, freq_count [97, 98] = some fv ∧
      construct_huffman_tree fv = some tree ∧
      (∀ c ∈ [97, 98], ∃ s, mapGet (to_hashmap tree) c = some s ∧ s ≠ []) ∧
      (∀ a b s₁ s₂, a ∈ [97, 98] → b ∈ [97, 98] → a ≠ b →
        mapGet (to_hashmap tree) a = some s₁ →
        mapGet (to_hashmap tree) b = some s₂ →
        s₁ ≠ s₂ ∧ ¬∃ suf, s₁ ++ suf = s₂) :=
  c10_prefix_code [97, 98] (by decide) 97 98 (by decide) (by decide) (by decide)

/-! ### `freq_count`: letters are distinct and drawn from the text -/

theorem letter_new (a b : Nat) : (Node.new a b).letter = a := rfl

theorem fcGo_letters_sorted :
    ∀ (l : List Nat) (prev f : Nat) (acc : List Node),
      l.Sorted (· ≤ ·) → (∀ x ∈ l, prev ≤ x) →
      (∀ x ∈ acc, x.letter < prev) →
      List.Sorted (· < ·) (acc.map Node.letter) →
      List.Sorted (· < ·) ((fcGo l prev f acc).map Node.letter)
  | [], prev, f, acc, _, _, hacc, hsacc => by
    rw [fcGo, List.map_append]
    refine List.pairwise_append.mpr ⟨hsacc, by simp, ?_⟩
    intro x hx y hy
    simp only [List.map_cons, List.map_nil, letter_new, List.mem_singleton] at hy
    subst hy
    obtain ⟨z, hz, hzx⟩ := List.mem_map.mp hx
    rw [← hzx]
    exact hacc z hz
  | c :: cs, prev, f, acc, hsl, hgel, hacc, hsacc => by
    rw [fcGo]
    by_cases hc : c = prev
    · rw [if_pos hc]
      refine fcGo_letters_sorted cs prev (f + 1) acc
        ((List.sorted_cons.mp hsl).2) ?_ hacc hsacc
      intro x hx
      rw [← hc]
      exact (List.sorted_cons.mp hsl).1 x hx
    · rw [if_neg hc]
      have hpc : prev < c :=
        Nat.lt_of_le_of_ne (hgel c (by simp)) (fun h => hc h.symm)
      refine fcGo_letters_sorted cs c 1 (acc ++ [Node.new prev f])
        ((List.sorted_cons.mp hsl).2) ?_ ?_ ?_
      · intro x hx
        exact (List.sorted_cons.mp hsl).1 x hx
      · intro x hx
        rcases List.mem_append.mp hx with h0 | h0
        · exact Nat.lt_trans (hacc x h0) hpc
        · rw [List.mem_singleton] at h0
          subst h0
          exact hpc
      · rw [List.map_append]
        refine List.pairwise_append.mpr ⟨hsacc, by simp, ?_⟩
        intro x hx y hy
        simp only [List.map_cons, List.map_nil, letter_new,
          List.mem_singleton] at hy
        subst hy
        obtain ⟨z, hz, hzx⟩ := List.mem_map.mp hx
        rw [← hzx]
        exact hacc z hz

theorem fcGo_letters_mem :
    ∀ (l : List Nat) (prev f : Nat) (acc : List Node) (x : Node),
      x ∈ fcGo l prev f acc →
      x.letter ∈ acc.map Node.letter ∨ x.letter = prev ∨ x.letter ∈ l
  | [], prev, f, acc, x, hx => by
    rw [fcGo] at hx
    rcases List.mem_append.mp hx with h0 | h0
    · exact Or.inl (List.mem_map_of_mem _ h0)
    · rw [List.mem_singleton] at h0
      subst h0
      exact Or.inr (Or.inl rfl)
  | c :: cs, prev, f, acc, x, hx => by
    rw [fcGo] at hx
    by_cases hc : c = prev
    · rw [if_pos hc] at hx
      rcases fcGo_letters_mem cs prev (f + 1) acc x hx with h0 | h0 | h0
      · exact Or.inl h0
      · exact Or.inr (Or.inl h0)
      · exact Or.inr (Or.inr (List.mem_cons_of_mem c h0))
    · rw [if_neg hc] at hx
      rcases fcGo_letters_mem cs c 1 _ x hx with h0 | h0 | h0
      · rw [List.map_append] at h0
        rcases List.mem_append.mp h0 with h1 | h1
        · exact Or.inl h1
        · simp only [List.map_cons, List.map_nil, letter_new,
            List.mem_singleton] at h1
          exact Or.inr (Or.inl h1)
      · exact Or.inr (Or.inr (by rw [h0]; simp))
      · exact Or.inr (Or.inr (List.mem_cons_of_mem c h0))

/-- The letters of the frequency vector are strictly ascending (hence
distinct) and are letters of the text. -/
theorem freq_count_letters (text : List Nat) (fv : List Node)
    (hfc : freq_count text = some fv) :
    List.Sorted (· < ·) (fv.map Node.letter) ∧ ∀ x ∈ fv, x.letter ∈ text := by
  have hperm : List.Perm (sortChars text) text := List.perm_insertionSort _ text
  have hsort : (sortChars text).Sorted (· ≤ ·) := List.sorted_insertionSort _ text
  cases hs : sortChars text with
  | nil =>
    simp only [freq_count, hs] at hfc
    cases hfc
  | cons p rest =>
    rw [hs] at hperm hsort
    simp only [freq_count, hs] at hfc
    injection hfc with hfv
    subst hfv
    have hge : ∀ x ∈ p :: rest, p ≤ x := by
      intro x hx
      rcases List.mem_cons.mp hx with h0 | h0
      · rw [h0]
      · exact (List.sorted_cons.mp hsort).1 x h0
    constructor
    · exact fcGo_letters_sorted (p :: rest) p 0 [] hsort hge (by simp) (by simp)
    · intro x hx
      rcases fcGo_letters_mem (p :: rest) p 0 [] x hx with h0 | h0 | h0
      · simp at h0
      · rw [h0]
        exact hperm.subset (by simp)
      · exact hperm.subset h0

/-- A strictly ascending list of values in `1..127` has at most 127
elements. -/
theorem sorted_letters_le_127 (ls : List Nat) (hs : List.Sorted (· < ·) ls)
    (hb : ∀ c ∈ ls, 0 < c ∧ c < 128) : ls.length ≤ 127 := by
  have hnd : ls.Nodup := hs.nodup
  have hsub : ls.toFinset ⊆ Finset.Ioo 0 128 := by
    intro x hx
    rw [List.mem_toFinset] at hx
    obtain ⟨h1, h2⟩ := hb x hx
    rw [Finset.mem_Ioo]
    exact ⟨h1, h2⟩
  have hcard := Finset.card_le_card hsub
  rw [List.toFinset_card_of_nodup hnd] at hcard
  simpa [Nat.card_Ioo] using hcard

/-! ### sizes and letters of the serialized tree -/

theorem to_string_length : ∀ (t : Node), WFTree t →
    (to_string t).length + 1 = 2 * (leavesOf t).length
  | .mk letter freq none none, _ => rfl
  | .mk letter freq (some l) (some r), hwf => by
    obtain ⟨-, -, hwl, hwr⟩ := hwf
    have hl := to_string_length l hwl
    have hr := to_string_length r hwr
    show (to_string l ++ to_string r ++ [letter]).length + 1
      = 2 * (leavesOf l ++ leavesOf r).length
    simp only [List.length_append, List.length_cons, List.length_nil]
    omega
  | .mk _ _ none (some _), hwf => hwf.elim
  | .mk _ _ (some _) none, hwf => hwf.elim

theorem to_string_letters : ∀ (t : Node), WFTree t →
    ∀ c ∈ to_string t, c = 0 ∨ c ∈ leafLetters t
  | .mk letter freq none none, _, c, hc => by
    have hc' : c ∈ ([] ++ [] ++ [letter] : List Nat) := hc
    simp only [List.nil_append, List.mem_singleton] at hc'
    subst hc'
    right
    simp [leafLetters, leavesOf, Node.letter]
  | .mk letter freq (some l) (some r), hwf, c, hc => by
    obtain ⟨h0, -, hwl, hwr⟩ := hwf
    subst h0
    have hc' : c ∈ to_string l ++ to_string r ++ [0] := hc
    rcases List.mem_append.mp hc' with h1 | h1
    · rcases List.mem_append.mp h1 with h2 | h2
      · rcases to_string_letters l hwl c h2 with h3 | h3
        · exact Or.inl h3
        · right
          simp only [leafLetters, leavesOf, List.map_append]
          simp only [leafLetters] at h3
          exact List.mem_append_left _ h3
      · rcases to_string_letters r hwr c h2 with h3 | h3
        · exact Or.inl h3
        · right
          simp only [leafLetters, leavesOf, List.map_append]
          simp only [leafLetters] at h3
          exact List.mem_append_right _ h3
    · rw [List.mem_singleton] at h1
      exact Or.inl h1
  | .mk _ _ none (some _), hwf, _, _ => hwf.elim
  | .mk _ _ (some _) none, hwf, _, _ => hwf.elim

theorem serializable_of_wf : ∀ (t : Node), WFTree t →
    (∀ c ∈ leafLetters t, 0 < c ∧ c < 128) → SerializableTree t
  | .mk letter freq none none, _, hb =>
    hb letter (by simp [leafLetters, leavesOf, Node.letter])
  | .mk letter freq (some l) (some r), hwf, hb => by
    obtain ⟨h0, -, hwl, hwr⟩ := hwf
    subst h0
    refine ⟨rfl, serializable_of_wf l hwl ?_, serializable_of_wf r hwr ?_⟩
    · intro c hc
      refine hb c ?_
      simp only [leafLetters, leavesOf, List.map_append]
      simp only [leafLetters] at hc
      exact List.mem_append_left _ hc
    · intro c hc
      refine hb c ?_
      simp only [leafLetters, leavesOf, List.map_append]
      simp only [leafLetters] at hc
      exact List.mem_append_right _ hc
  | .mk _ _ none (some _), hwf, _ => hwf.elim
  | .mk _ _ (some _) none, hwf, _ => hwf.elim

theorem utf8Bytes_ascii : ∀ (s : List Nat), (∀ c ∈ s, c < 128) → utf8Bytes s = s
  | [], _ => rfl
  | c :: cs, h => by
    have h1 : c < 128 := h c (by simp)
    have h2 := utf8Bytes_ascii cs (fun x hx => h x (List.mem_cons_of_mem c hx))
    show utf8EncodeChar c ++ utf8Bytes cs = c :: cs
    rw [h2, utf8EncodeChar, if_pos (show c < 0x80 from h1)]
    rfl

/-! ### `stripFreq` preserves shape, letters and paths -/

theorem stripFreq_left (t : Node) : (stripFreq t).left = none ↔ t.left = none := by
  cases t with
  | mk letter freq left right =>
    cases left <;> cases right <;> simp [stripFreq, Node.left]

theorem stripFreq_right (t : Node) : (stripFreq t).right = none ↔ t.right = none := by
  cases t with
  | mk letter freq left right =>
    cases left <;> cases right <;> simp [stripFreq, Node.right]

theorem stripFreq_letter (t : Node) : (stripFreq t).letter = t.letter := by
  cases t with
  | mk letter freq left right => cases left <;> cases right <;> rfl

theorem follow_stripFreq :
    ∀ (p : List Bool) (t ℓ : Node), follow t p = some ℓ →
      follow (stripFreq t) p = some (stripFreq ℓ)
  | [], t, ℓ, h => by
    rw [follow] at h
    injection h with h
    subst h
    rfl
  | b :: bs, t, ℓ, h => by
    rw [follow] at h
    cases t with
    | mk a f left right =>
      simp only [Node.left, Node.right] at h
      cases left with
      | none => simp at h
      | some l =>
        cases right with
        | none => simp at h
        | some r =>
          simp only at h
          show follow (Node.mk a 0 (some (stripFreq l)) (some (stripFreq r)))
            (b :: bs) = some (stripFreq ℓ)
          rw [follow]
          simp only [Node.left, Node.right]
          have hcomm : (if b then stripFreq r else stripFreq l)
              = stripFreq (if b then r else l) := by cases b <;> rfl
          rw [hcomm]
          exact follow_stripFreq bs (if b then r else l) ℓ h

theorem strToBits_pathStr (p : List Bool) : strToBits (pathStr p) = p := by
  rw [strToBits, pathStr, List.map_map]
  conv_rhs => rw [← List.map_id p]
  refine List.map_congr_left ?_
  intro b _
  cases b <;> rfl

theorem flatMap_len_one (l : List Nat) (f : Nat → List Bool)
    (h : ∀ c ∈ l, (f c).length = 1) : (l.flatMap f).length = l.length := by
  induction l with
  | nil => rfl
  | cons c cs ih =>
    rw [List.flatMap_cons]
    simp only [List.length_append, List.length_cons]
    rw [h c (by simp), ih (fun x hx => h x (List.mem_cons_of_mem c hx))]
    omega

/-! ### correctness of the decoding loop -/

/-- One iteration of the decoding loop at an internal cursor: no emission,
step to the child the bit selects. -/
theorem decodeLoop_step_int (T : Node) (b : Bool) (bs : List Bool)
    (tmp : Node) (out : List Nat) (l r : Node)
    (hl : tmp.left = some l) (hr : tmp.right = some r) :
    decodeLoop T (b :: bs) tmp out
      = decodeLoop T bs (if b then r else l) out := by
  cases tmp with
  | mk a f left right =>
    simp only [Node.left] at hl
    simp only [Node.right] at hr
    subst hl
    subst hr
    rfl

/-- One iteration of the decoding loop at a leaf cursor: emit the leaf's
letter, reset to the root, step to the child the bit selects. -/
theorem decodeLoop_step_leaf (T : Node) (b : Bool) (bs : List Bool)
    (tmp : Node) (out : List Nat) (l r : Node)
    (htmp : tmp.left = none) (hTL : T.left = some l) (hTR : T.right = some r) :
    decodeLoop T (b :: bs) tmp out
      = decodeLoop T bs (if b then r else l) (out ++ [tmp.letter]) := by
  cases tmp with
  | mk a f left right =>
    simp only [Node.left] at htmp
    subst htmp
    cases T with
    | mk ta tf tl tr =>
      simp only [Node.left] at hTL
      simp only [Node.right] at hTR
      subst hTL
      subst hTR
      rfl

/-- Consuming a non-empty path from an internal cursor walks to the path's
target without emitting. -/
theorem decodeLoop_walk (T : Node) :
    ∀ (q : List Bool) (n ℓ : Node) (bs : List Bool) (out : List Nat),
      q ≠ [] → n.left ≠ none → follow n q = some ℓ →
      decodeLoop T (q ++ bs) n out = decodeLoop T bs ℓ out
  | [], _, _, _, _, hq, _, _ => absurd rfl hq
  | b :: q', n, ℓ, bs, out, _, hn, hf => by
    rw [follow] at hf
    cases hL : n.left with
    | none => exact absurd hL hn
    | some l =>
      cases hR : n.right with
      | none =>
        rw [hL, hR] at hf
        simp at hf
      | some r =>
        rw [hL, hR] at hf
        simp only at hf
        rw [List.cons_append, decodeLoop_step_int T b (q' ++ bs) n out l r hL hR]
        by_cases hq' : q' = []
        · subst hq'
          rw [follow] at hf
          injection hf with hf
          rw [List.nil_append, hf]
        · have hcl : (if b then r else l).left ≠ none := by
            cases hq0 : q' with
            | nil => exact absurd hq0 hq'
            | cons b' q'' =>
              rw [hq0, follow] at hf
              cases hcL : (if b then r else l).left with
              | none =>
                rw [hcL] at hf
                simp at hf
              | some _ => simp
          exact decodeLoop_walk T q' (if b then r else l) ℓ bs out hq' hcl hf

/-- From a leaf cursor, decoding the concatenated codes of `cs` emits the
deferred leaf letter followed by `cs` (the last letter by the final flush). -/
theorem decodeLoop_decode (T : Node) (hTl : T.left ≠ none) (hTr : T.right ≠ none)
    (f : Nat → List Bool) :
    ∀ (cs : List Nat) (ℓ : Node), ℓ.left = none →
      (∀ c ∈ cs, ∃ ℓ', f c ≠ [] ∧ follow T (f c) = some ℓ' ∧
        ℓ'.left = none ∧ ℓ'.letter = c) →
      ∀ out, decodeLoop T (cs.flatMap f) ℓ out = some (out ++ ℓ.letter :: cs)
  | [], ℓ, hℓ, _, out => by
    rw [List.flatMap_nil, decodeLoop]
    have hne : ℓ ≠ T := fun h => hTl (h ▸ hℓ)
    rw [if_pos hne]
  | c :: cs', ℓ, hℓ, hcodes, out => by
    obtain ⟨ℓ', hfne, hfol, hℓ', hlet⟩ := hcodes c (by simp)
    rw [List.flatMap_cons]
    cases hfc : f c with
    | nil => exact absurd hfc hfne
    | cons b p' =>
      rw [hfc] at hfol
      cases hTL : T.left with
      | none => exact absurd hTL hTl
      | some l =>
        cases hTR : T.right with
        | none => exact absurd hTR hTr
        | some r =>
          rw [List.cons_append,
            decodeLoop_step_leaf T b (p' ++ cs'.flatMap f) ℓ out l r hℓ hTL hTR]
          rw [follow, hTL, hTR] at hfol
          simp only at hfol
          have hrest := decodeLoop_decode T hTl hTr f cs' ℓ' hℓ'
            (fun x hx => hcodes x (List.mem_cons_of_mem c hx))
            (out ++ [ℓ.letter])
          by_cases hp' : p' = []
          · subst hp'
            rw [follow] at hfol
            injection hfol with hfol
            rw [List.nil_append, hfol, hrest, hlet]
            simp
          · have hcl : (if b then r else l).left ≠ none := by
              cases hq0 : p' with
              | nil => exact absurd hq0 hp'
              | cons b' q'' =>
                rw [hq0, follow] at hfol
                cases hcL : (if b then r else l).left with
                | none =>
                  rw [hcL] at hfol
                  simp at hfol
                | some _ => simp
            rw [decodeLoop_walk T p' (if b then r else l) ℓ'
              (cs'.flatMap f) (out ++ [ℓ.letter]) hp' hcl hfol]
            rw [hrest, hlet]
            simp

/-- Decoding the concatenated codes of a non-empty `cs` from the root of a
non-degenerate tree returns exactly `cs`. -/
theorem decodeLoop_start (T : Node) (hTl : T.left ≠ none) (hTr : T.right ≠ none)
    (f : Nat → List Bool) (cs : List Nat) (hcs : cs ≠ [])
    (hcodes : ∀ c ∈ cs, ∃ ℓ', f c ≠ [] ∧ follow T (f c) = some ℓ' ∧
      ℓ'.left = none ∧ ℓ'.letter = c) :
    decodeLoop T (cs.flatMap f) T [] = some cs := by
  cases cs with
  | nil => exact absurd rfl hcs
  | cons c cs' =>
    obtain ⟨ℓ', hfne, hfol, hℓ', hlet⟩ := hcodes c (by simp)
    rw [List.flatMap_cons]
    cases hfc : f c with
    | nil => exact absurd hfc hfne
    | cons b p' =>
      rw [hfc] at hfol
      cases hTL : T.left with
      | none => exact absurd hTL hTl
      | some l =>
        cases hTR : T.right with
        | none => exact absurd hTR hTr
        | some r =>
          rw [List.cons_append,
            decodeLoop_step_int T b (p' ++ cs'.flatMap f) T [] l r hTL hTR]
          rw [follow, hTL, hTR] at hfol
          simp only at hfol
          have hrest := decodeLoop_decode T hTl hTr f cs' ℓ' hℓ'
            (fun x hx => hcodes x (List.mem_cons_of_mem c hx)) []
          by_cases hp' : p' = []
          · subst hp'
            rw [follow] at hfol
            injection hfol with hfol
            rw [List.nil_append, hfol, hrest, hlet]
            simp
          · have hcl : (if b then r else l).left ≠ none := by
              cases hq0 : p' with
              | nil => exact absurd hq0 hp'
              | cons b' q'' =>
                rw [hq0, follow] at hfol
                cases hcL : (if b then r else l).left with
                | none =>
                  rw [hcL] at hfol
                  simp at hfol
                | some _ => simp
            rw [decodeLoop_walk T p' (if b then r else l) ℓ'
              (cs'.flatMap f) [] hp' hcl hfol]
            rw [hrest, hlet]
            simp

/-! ### the round trip -/

/-- C1 (amended): the round trip is exact for every non-empty text of
non-NUL ASCII symbols (0x01..0x7F); for such texts the serialized tree is at
most 253 bytes, so the 255-byte constraint holds automatically.  For general
non-NUL texts the claim fails: `compress` serializes the tree through UTF-8
(`String::into_bytes`) while `decompress` reads the bytes back one at a
time, so any symbol ≥ 0x80 corrupts the reconstructed tree (see the
counterexample). -/
theorem c1_round_trip_ascii (text : List Nat) (hne : text ≠ [])
    (hascii : ∀ c ∈ text, 0 < c ∧ c < 128) :
    (compress text).bind decompress = some text := by
  obtain ⟨fv, hfc, hfvne, hfvleaf, hcover⟩ := freq_count_spec text hne
  obtain ⟨hsorted, hfvletters⟩ := freq_count_letters text fv hfc
  obtain ⟨tree, hct, hwf, hleaves⟩ := tree_spec fv hfvne hfvleaf
  have hleafascii : ∀ c ∈ leafLetters tree, 0 < c ∧ c < 128 := by
    intro c hc
    obtain ⟨x, hx, hxc⟩ := List.mem_map.mp hc
    rw [← hxc]
    exact hascii _ (hfvletters x (hleaves.mem_iff.mp hx))
  have hser : SerializableTree tree := serializable_of_wf tree hwf hleafascii
  have hfvascii : ∀ c ∈ fv.map Node.letter, 0 < c ∧ c < 128 := by
    intro c hc
    obtain ⟨x, hx, hxc⟩ := List.mem_map.mp hc
    rw [← hxc]
    exact hascii _ (hfvletters x hx)
  have hfv127 : fv.length ≤ 127 := by
    have h1 := sorted_letters_le_127 (fv.map Node.letter) hsorted hfvascii
    rwa [List.length_map] at h1
  have hts_ascii : ∀ c ∈ to_string tree, c < 128 := by
    intro c hc
    rcases to_string_letters tree hwf c hc with h0 | h0
    · omega
    · exact (hleafascii c h0).2
  have hu : utf8Bytes (to_string tree) = to_string tree := utf8Bytes_ascii _ hts_ascii
  have hts_len : (to_string tree).length + 1 = 2 * (leavesOf tree).length :=
    to_string_length tree hwf
  have hlv_len : (leavesOf tree).length = fv.length := hleaves.length_eq
  have h255 : (to_string tree).length ≤ 255 := by omega
  have hlet : ∀ c ∈ text, c ∈ leafLetters tree := by
    intro c hc
    obtain ⟨x, hx, hxc⟩ := hcover c hc
    rw [← hxc]
    exact List.mem_map_of_mem Node.letter (hleaves.mem_iff.mpr hx)
  have hdeg : tree.left = none → ∀ c ∈ text, c = tree.letter := by
    intro htL c hc
    have h1 := hlet c hc
    cases tree with
    | mk a b left right =>
      simp only [Node.left] at htL
      subst htL
      simp only [leafLetters, leavesOf, List.map_cons, List.map_nil,
        Node.letter, List.mem_singleton] at h1
      rw [h1]
      rfl
  have hmg_deg : tree.left = none → ∀ c ∈ text,
      mapGet (to_hashmap tree) c = some [48] := by
    intro htL c hc
    have hceq := hdeg htL c hc
    subst hceq
    rw [to_hashmap, if_pos (by rw [htL]; rfl)]
    simp [mapGet, List.find?]
  have hall : ∀ c ∈ text, mapGet (to_hashmap tree) c ≠ none := by
    intro c hc
    cases htL : tree.left with
    | none =>
      rw [hmg_deg htL c hc]
      simp
    | some l0 =>
      obtain ⟨p, ℓ, hmg, -, -, -, -⟩ :=
        to_hashmap_code tree hwf (by rw [htL]; simp) c (hlet c hc)
      rw [hmg]
      simp
  obtain ⟨stream, hcd, hstream_lt, hg3, hg4⟩ := compress_data_sem text tree hall
  have hemb : embed_tree tree = (to_string tree).length :: to_string tree := by
    show (utf8Bytes (to_string tree)).length % 256 :: utf8Bytes (to_string tree)
      = (to_string tree).length :: to_string tree
    rw [hu, Nat.mod_eq_of_lt (by omega)]
  have hcompress : compress text
      = some (((to_string tree).length :: to_string tree)
        ++ ((8 - (codeBits tree text).length % 8) % 8) :: stream) := by
    simp only [compress, hfc, hct, hcd]
    rw [hemb]
  rw [hcompress]
  show decompress (((to_string tree).length :: to_string tree)
    ++ ((8 - (codeBits tree text).length % 8) % 8) :: stream) = some text
  rw [List.cons_append, decompress]
  have hrl : ¬((to_string tree
      ++ ((8 - (codeBits tree text).length % 8) % 8) :: stream).length
      < (to_string tree).length) := by
    simp only [List.length_append, List.length_cons]
    omega
  rw [if_neg hrl, List.take_left, List.drop_left]
  have hdeser : construct_tree_from_postorder (to_string tree)
      = some (stripFreq tree) := by
    rw [← hu]
    exact deserialize_serialize tree hser
  simp only [hdeser]
  show (if ((stream.foldl (fun acc b => acc ++ byteBits b) []).length
        < (8 - (codeBits tree text).length % 8) % 8) then none
      else
        if (stripFreq tree).left.isNone then
          some (List.replicate
            (((stream.foldl (fun acc b => acc ++ byteBits b) []).take
              ((stream.foldl (fun acc b => acc ++ byteBits b) []).length
                - (8 - (codeBits tree text).length % 8) % 8)).length)
            (stripFreq tree).letter)
        else
          decodeLoop (stripFreq tree)
            ((stream.foldl (fun acc b => acc ++ byteBits b) []).take
              ((stream.foldl (fun acc b => acc ++ byteBits b) []).length
                - (8 - (codeBits tree text).length % 8) % 8))
            (stripFreq tree) []) = some text
  rw [foldl_append_byteBits, List.nil_append, hg3]
  have hlen1 : (codeBits tree text ++ List.replicate
      ((8 - (codeBits tree text).length % 8) % 8) false).length
      = (codeBits tree text).length
        + (8 - (codeBits tree text).length % 8) % 8 := by
    simp
  rw [hlen1, if_neg (by omega), Nat.add_sub_cancel, List.take_left]
  cases htL : tree.left with
  | none =>
    have hstrip : (stripFreq tree).left = none := (stripFreq_left tree).mpr htL
    rw [if_pos (by rw [hstrip]; rfl)]
    have hdegc := hdeg htL
    have hmg := hmg_deg htL
    have hcbl : (codeBits tree text).length = text.length := by
      refine flatMap_len_one text _ ?_
      intro c hc
      rw [hmg c hc]
      rfl
    rw [stripFreq_letter, hcbl]
    congr 1
    refine (List.eq_replicate_iff.mpr ⟨rfl, ?_⟩).symm
    intro b hb
    exact hdegc b hb
  | some l0 =>
    have hroot : tree.left ≠ none := by rw [htL]; simp
    have hrootr : tree.right ≠ none := by
      cases tree with
      | mk a b left right =>
        simp only [Node.left] at htL
        subst htL
        cases right with
        | none => exact (hwf : False).elim
        | some r0 => simp [Node.right]
    have hTl : (stripFreq tree).left ≠ none :=
      fun h => hroot ((stripFreq_left tree).mp h)
    have hTr : (stripFreq tree).right ≠ none :=
      fun h => hrootr ((stripFreq_right tree).mp h)
    rw [if_neg (by simp only [Option.isNone_iff_eq_none]; exact hTl)]
    have hcodes : ∀ c ∈ text, ∃ ℓ',
        strToBits ((mapGet (to_hashmap tree) c).getD []) ≠ [] ∧
        follow (stripFreq tree) (strToBits ((mapGet (to_hashmap tree) c).getD []))
          = some ℓ' ∧ ℓ'.left = none ∧ ℓ'.letter = c := by
      intro c hc
      obtain ⟨p, ℓ, hmg, hfol, hleaf, hlett, hpne⟩ :=
        to_hashmap_code tree hwf hroot c (hlet c hc)
      have hfcp : strToBits ((mapGet (to_hashmap tree) c).getD []) = p := by
        rw [hmg, Option.getD_some, strToBits_pathStr]
      refine ⟨stripFreq ℓ, ?_, ?_, ?_, ?_⟩
      · rw [hfcp]
        exact hpne
      · rw [hfcp]
        exact follow_stripFreq p tree ℓ hfol
      · exact (stripFreq_left ℓ).mpr hleaf
      · rw [stripFreq_letter]
        exact hlett
    exact decodeLoop_start (stripFreq tree) hTl hTr
      (fun c => strToBits ((mapGet (to_hashmap tree) c).getD [])) text hne hcodes

theorem c1_round_trip_ascii_witness :
    ([97, 98, 97] : List Nat) ≠ [] ∧
    (compress [97, 98, 97]).bind decompress = some [97, 98, 97] :=
  ⟨by decide, c1_round_trip_ascii [97, 98, 97] (by decide) (by decide)⟩

end HuffmanRs
